import Mathlib

/-!
Verification of the quadruple-counting library: the dynamic-programming
counter (`dp.py`), the pair-sum histogram counter (`pair_sum.py`) and the
closed-form combinatorial counter together with the solver harness
(`main.py`).  Python integers are modelled as `ℤ`, Python lists as Lean
lists with `getD`/`set` access, and loops as left folds over the explicit
lists that Python's `range` produces.
-/

/-- Python `range(lo, hi)`: the ascending list `[lo, lo+1, ..., hi-1]`. -/
def pyRange (lo hi : ℕ) : List ℕ :=
  List.range' lo (hi - lo)

/-- Python `range(hi, lo - 1, -1)`: the descending list `[hi, hi-1, ..., lo]`. -/
def pyRangeDown (hi lo : ℕ) : List ℕ :=
  (List.range' lo (hi + 1 - lo)).reverse

/-- Model of `tqdm.rich.tqdm` wrapped around an iterable: the progress bar
renders to the console but yields exactly the items of the underlying
iterable, so as an iteration source it is the identity; the description and
position arguments affect rendering only. -/
def tqdmIter (xs : List ℕ) (progress_desc : Option String)
    (progress_position : Option ℤ) : List ℕ :=
  xs

/-- The iterator chosen by the `show_progress` flag in both engines:
either the plain range or the `tqdm`-wrapped range. -/
def progressIter (show_progress : Bool) (xs : List ℕ)
    (progress_desc : Option String) (progress_position : Option ℤ) : List ℕ :=
  if show_progress then tqdmIter xs progress_desc progress_position else xs

/-- The Python statement
`count_table[ns][cs] += count_table[ns - 1][cs - candidate]`
on the 5 × (target_sum + 1) table of `dp.count_quadruples`. -/
def dpBump (candidate ns : ℕ) (t : List (List ℤ)) (cs : ℕ) : List (List ℤ) :=
  t.set ns ((t.getD ns []).set cs
    ((t.getD ns []).getD cs 0 + (t.getD (ns - 1) []).getD (cs - candidate) 0))

/-- The inner loop `for current_sum in range(target_sum, candidate - 1, -1)`
of `dp.count_quadruples`. -/
def dpInner (target_sum candidate ns : ℕ) (t : List (List ℤ)) : List (List ℤ) :=
  (pyRangeDown target_sum candidate).foldl (dpBump candidate ns) t

/-- The middle loop `for numbers_selected in range(4, 0, -1)` of
`dp.count_quadruples`, processing one candidate value. -/
def dpCandidate (target_sum : ℕ) (t : List (List ℤ)) (candidate : ℕ) :
    List (List ℤ) :=
  (pyRangeDown 4 1).foldl (fun t2 ns => dpInner target_sum candidate ns t2) t

/-- The initial table `[[0] * (target_sum + 1) for _ in range(5)]` after
`count_table[0][0] = 1`. -/
def dpInit (target_sum : ℕ) : List (List ℤ) :=
  (List.replicate 5 (List.replicate (target_sum + 1) (0 : ℤ))).set 0
    ((List.replicate (target_sum + 1) (0 : ℤ)).set 0 1)

/-- The fully processed DP table of `dp.count_quadruples`: the outer loop
`for candidate in iterator` over the (possibly progress-wrapped) range
`1 .. max_value`. -/
def dpTable (target_sum max_value : ℕ) (show_progress : Bool)
    (progress_position : Option ℤ) (progress_desc : Option String) :
    List (List ℤ) :=
  (progressIter show_progress (pyRange 1 (max_value + 1)) progress_desc
      progress_position).foldl (dpCandidate target_sum) (dpInit target_sum)

/-- `dp.count_quadruples(target_sum, max_value, *, show_progress,
progress_position, progress_desc)`: counts quadruples
`1 ≤ a < b < c < d ≤ max_value` with `a + b + c + d = target_sum` by
dynamic programming. -/
def count_quadruples (target_sum max_value : ℤ)
    (show_progress : Bool := true) (progress_position : Option ℤ := none)
    (progress_desc : Option String := none) : ℤ :=
  if target_sum < 10 ∨ target_sum > 4 * max_value - 6 then 0
  else
    ((dpTable target_sum.toNat max_value.toNat show_progress
        progress_position progress_desc).getD 4 []).getD target_sum.toNat 0

/-- The registration loop of `pair_sum.count_quadruples_pair_sum`:
`third = second + 1; for fourth in range(third + 1, upper_bound + 1):
pair_counts[third + fourth] += 1`. -/
def registerPairs (upper_bound second : ℕ) (pair_counts : List ℤ) : List ℤ :=
  (pyRange (second + 2) (upper_bound + 1)).foldl
    (fun pc fourth =>
      pc.set (second + 1 + fourth) (pc.getD (second + 1 + fourth) 0 + 1))
    pair_counts

/-- The query loop of `pair_sum.count_quadruples_pair_sum`:
`sum_without_first = target_sum - second; for first in range(1, second):
target = sum_without_first - first;
if 0 <= target <= 2 * upper_bound: total += pair_counts[target]`. -/
def queryFirsts (upper_bound : ℕ) (target_sum : ℤ) (second : ℕ)
    (pair_counts : List ℤ) (total : ℤ) : ℤ :=
  (pyRange 1 second).foldl
    (fun (tot : ℤ) (first : ℕ) =>
      if 0 ≤ target_sum - second - first ∧
          target_sum - second - first ≤ 2 * upper_bound then
        tot + pair_counts.getD (target_sum - second - first).toNat 0
      else tot)
    total

/-- One iteration of the outer sweep `for second in indices` of
`pair_sum.count_quadruples_pair_sum`. -/
def pairSweepStep (upper_bound : ℕ) (target_sum : ℤ)
    (st : List ℤ × ℤ) (second : ℕ) : List ℤ × ℤ :=
  let pc := registerPairs upper_bound second st.1
  (pc, queryFirsts upper_bound target_sum second pc st.2)

/-- `pair_sum.count_quadruples_pair_sum(target_sum, upper_bound,
show_progress, *, progress_position, progress_desc)`: counts quadruples
`1 ≤ a < b < c < d ≤ upper_bound` with `a + b + c + d = target_sum` using a
pair-sum histogram over the sweep `second = upper_bound - 2, ..., 2`. -/
def count_quadruples_pair_sum (target_sum upper_bound : ℤ)
    (show_progress : Bool := true) (progress_position : Option ℤ := none)
    (progress_desc : Option String := none) : ℤ :=
  if target_sum < 10 ∨ target_sum > 4 * upper_bound - 6 then 0
  else
    ((progressIter show_progress
        (pyRangeDown (upper_bound.toNat - 2) 2) progress_desc
        progress_position).foldl
      (pairSweepStep upper_bound.toNat target_sum)
      (List.replicate (2 * upper_bound.toNat + 1) (0 : ℤ), 0)).2

/-- `main.solve_with_formula(n)` (the result component; the `timed`
decorator returns the pair `(result, elapsed)` with the result unchanged):
closed-form count of quadruples `1 ≤ a < b < c < d ≤ n` whose sum is
divisible by `n`, via `base = comb(n, 4) * 4 // n` and a `match n % 4`
case analysis. -/
def solve_with_formula (n : ℤ) : ℤ :=
  if n < 5 then 0
  else
    let base : ℕ := n.toNat.choose 4 * 4 / n.toNat
    match n.toNat % 4 with
    | 1 => (base / 4 : ℕ)
    | 3 => (base / 4 : ℕ)
    | 2 => ((base * 2 + n.toNat - 2) / 8 : ℕ)
    | 0 => ((base * 2 + n.toNat - 6) / 8 : ℕ)
    | _ => 0

/-- The description string `f"{progress_desc} (mult={multiplier})" if
progress_desc else None` built by the solver wrappers (a Python `None` or
empty string is falsy and propagates as `None`). -/
def multDesc (progress_desc : Option String) (multiplier : ℤ) :
    Option String :=
  match progress_desc with
  | some d =>
      if d = "" then none
      else some (d ++ " (mult=" ++ toString multiplier ++ ")")
  | none => none

/-- `main.solve_with_dp(n, *, show_progress, progress_position,
progress_desc)` (result component): sums the DP counts for target sums
`n * k`, `k = 1, 2, 3`. -/
def solve_with_dp (n : ℤ) (show_progress : Bool := false)
    (progress_position : Option ℤ := none)
    (progress_desc : Option String := none) : ℤ :=
  ([1, 2, 3] : List ℤ).foldl
    (fun acc multiplier =>
      acc + count_quadruples (n * multiplier) n show_progress
        progress_position (multDesc progress_desc multiplier))
    0

/-- `main.solve_with_pair_sum(n, *, show_progress, progress_position,
progress_desc)` (result component): sums the pair-sum counts for target
sums `n * k`, `k = 1, 2, 3`. -/
def solve_with_pair_sum (n : ℤ) (show_progress : Bool := false)
    (progress_position : Option ℤ := none)
    (progress_desc : Option String := none) : ℤ :=
  ([1, 2, 3] : List ℤ).foldl
    (fun acc multiplier =>
      acc + count_quadruples_pair_sum (n * multiplier) n show_progress
        progress_position (multDesc progress_desc multiplier))
    0

/-- The number of strictly increasing integer quadruples
`1 ≤ a < b < c < d ≤ M` with `a + b + c + d = N`. -/
def specCount (N M : ℤ) : ℕ :=
  ((Finset.Icc 1 M ×ˢ Finset.Icc 1 M ×ˢ Finset.Icc 1 M ×ˢ
      Finset.Icc 1 M).filter
    (fun q => q.1 < q.2.1 ∧ q.2.1 < q.2.2.1 ∧ q.2.2.1 < q.2.2.2 ∧
      q.1 + q.2.1 + q.2.2.1 + q.2.2.2 = N)).card

/-- The number of strictly increasing integer quadruples
`1 ≤ a < b < c < d ≤ n` whose sum is divisible by `n`. -/
def specCountDiv (n : ℤ) : ℕ :=
  ((Finset.Icc 1 n ×ˢ Finset.Icc 1 n ×ˢ Finset.Icc 1 n ×ˢ
      Finset.Icc 1 n).filter
    (fun q => q.1 < q.2.1 ∧ q.2.1 < q.2.2.1 ∧ q.2.2.1 < q.2.2.2 ∧
      n ∣ (q.1 + q.2.1 + q.2.2.1 + q.2.2.2))).card

/-- Entry `(i, j)` of a table represented as a list of rows, with the
out-of-range default `0` (all accesses performed by the code are
in range). -/
def tget (t : List (List ℤ)) (i j : ℕ) : ℤ :=
  (t.getD i []).getD j 0

/-- The shape of the DP table of `dp.count_quadruples`: five rows of
length `target_sum + 1`. -/
def TableShape (N : ℕ) (t : List (List ℤ)) : Prop :=
  t.length = 5 ∧ ∀ r ∈ t, r.length = N + 1

/-- The number of `j`-element subsets of `{1, ..., v}` with sum `s`,
defined by the recurrence that the DP table of `dp.count_quadruples`
computes: a subset of `{1, ..., v+1}` either avoids `v + 1` or contains it
together with a `(j-1)`-subset of `{1, ..., v}` of sum `s - (v+1)`. -/
def ways : ℕ → ℕ → ℕ → ℕ
  | 0, j, s => if j = 0 ∧ s = 0 then 1 else 0
  | v + 1, j, s =>
      ways v j s + if 1 ≤ j ∧ v + 1 ≤ s then ways v (j - 1) (s - (v + 1)) else 0

/-- The number of `j`-element subsets of `{1, ..., v}` whose sum satisfies
the predicate `p`. -/
def subsetCount (p : ℕ → Prop) [DecidablePred p] (v j : ℕ) : ℕ :=
  (((Finset.Icc 1 v).powersetCard j).filter (fun A => p (A.sum id))).card

/-- The number of strictly increasing quadruples `1 ≤ a < b < c < d ≤ M`
of naturals whose sum satisfies the predicate `p`. -/
def quadCount (p : ℕ → Prop) [DecidablePred p] (M : ℕ) : ℕ :=
  ((Finset.Icc 1 M ×ˢ Finset.Icc 1 M ×ˢ Finset.Icc 1 M ×ˢ
      Finset.Icc 1 M).filter
    (fun q => q.1 < q.2.1 ∧ q.2.1 < q.2.2.1 ∧ q.2.2.1 < q.2.2.2 ∧
      p (q.1 + q.2.1 + q.2.2.1 + q.2.2.2))).card

/-- The number of pairs `(c, d)` with `β < c < d ≤ M` (and `1 ≤ c`) whose
sum is `s`: the contents of histogram slot `s` of
`pair_sum.count_quadruples_pair_sum` once every `second > β` has been
registered. -/
def pairCount (M β s : ℕ) : ℕ :=
  ((Finset.Icc 1 M ×ˢ Finset.Icc 1 M).filter
    (fun cd => β < cd.1 ∧ cd.1 < cd.2 ∧ cd.1 + cd.2 = s)).card

/-- The number of pairs `(c, d)` with `β < c < d ≤ M` whose sum equals the
integer `t` (the histogram query value before the `0 ≤ t ≤ 2·M` guard). -/
def pairCountZ (M β : ℕ) (t : ℤ) : ℕ :=
  ((Finset.Icc 1 M ×ˢ Finset.Icc 1 M).filter
    (fun cd => β < cd.1 ∧ cd.1 < cd.2 ∧ ((cd.1 : ℤ) + cd.2 = t))).card

/-- The number of quadruples `1 ≤ a < b < c < d ≤ M` with `b = second` and
integer sum `N`: the amount contributed to `total` by one outer-loop
iteration of `pair_sum.count_quadruples_pair_sum`. -/
def quadAtSecond (M : ℕ) (N : ℤ) (second : ℕ) : ℕ :=
  ((Finset.Icc 1 M ×ˢ Finset.Icc 1 M ×ˢ Finset.Icc 1 M ×ˢ
      Finset.Icc 1 M).filter
    (fun q => q.1 < q.2.1 ∧ q.2.1 < q.2.2.1 ∧ q.2.2.1 < q.2.2.2 ∧
      q.2.1 = second ∧
      (q.1 : ℤ) + q.2.1 + q.2.2.1 + q.2.2.2 = N)).card

/-- The number of quadruples `1 ≤ a < b < c < d ≤ M` with `b ≤ B` and
integer sum `N`: the amount the remaining sweep over
`second = B, B - 1, ..., 2` adds to `total` in
`pair_sum.count_quadruples_pair_sum`. -/
def quadUpTo (M : ℕ) (N : ℤ) (B : ℕ) : ℕ :=
  ((Finset.Icc 1 M ×ˢ Finset.Icc 1 M ×ˢ Finset.Icc 1 M ×ˢ
      Finset.Icc 1 M).filter
    (fun q => q.1 < q.2.1 ∧ q.2.1 < q.2.2.1 ∧ q.2.2.1 < q.2.2.2 ∧
      q.2.1 ≤ B ∧
      (q.1 : ℤ) + q.2.1 + q.2.2.1 + q.2.2.2 = N)).card

/-- The number of 4-element subsets of `{1, ..., n}` whose sum has residue
`t` modulo `n`; `solve_with_formula` computes `resCount n 0` in closed
form. -/
def resCount (n t : ℕ) : ℕ :=
  subsetCount (fun x => x % n = t) n 4

/-- The weighted subset sum `Σ_{A ⊆ s, |A| = k} Π_{x ∈ A} w x` (the `k`-th
elementary symmetric function of the weights `w x`, `x ∈ s`). -/
def esum {R : Type} [CommRing R] (w : ℕ → R) (s : Finset ℕ) (k : ℕ) : R :=
  ∑ A ∈ s.powersetCard k, ∏ x ∈ A, w x

/-- The imaginary unit of the Gaussian integers. -/
def gi : GaussianInt :=
  ⟨0, 1⟩

/-! ## List access toolkit -/

theorem getD_set_self {α : Type} {l : List α} {j : ℕ} (h : j < l.length)
    (v : α) (d : α) : (l.set j v).getD j d = v := by
  simp [List.getD_eq_getElem?_getD, List.getElem?_set_eq_of_lt _ h]

theorem getD_set_ne {α : Type} {l : List α} {i j : ℕ} (hij : i ≠ j)
    (v : α) (d : α) : (l.set j v).getD i d = l.getD i d := by
  simp [List.getD_eq_getElem?_getD, List.getElem?_set_ne hij.symm]

theorem getD_replicate {α : Type} {n i : ℕ} (a d : α) :
    (List.replicate n a).getD i d = if i < n then a else d := by
  by_cases h : i < n
  · simp [List.getD_eq_getElem?_getD, List.getElem?_replicate, h]
  · rw [List.getD_eq_default _ _ (by simp only [List.length_replicate]; omega)]
    simp [h]

theorem mem_pyRange {lo hi x : ℕ} : x ∈ pyRange lo hi ↔ lo ≤ x ∧ x < hi := by
  unfold pyRange
  rw [List.mem_range'_1]
  omega

theorem mem_pyRangeDown {hi lo x : ℕ} :
    x ∈ pyRangeDown hi lo ↔ lo ≤ x ∧ x ≤ hi := by
  unfold pyRangeDown
  rw [List.mem_reverse, List.mem_range'_1]
  omega

theorem nodup_pyRangeDown (hi lo : ℕ) : (pyRangeDown hi lo).Nodup := by
  unfold pyRangeDown
  exact List.nodup_reverse.mpr (List.nodup_range' ..)

/-! ## Shape and entry lemmas for the DP table -/

theorem TableShape.row_length {N : ℕ} {t : List (List ℤ)}
    (h : TableShape N t) {i : ℕ} (hi : i < 5) :
    (t.getD i []).length = N + 1 := by
  obtain ⟨hlen, hrow⟩ := h
  rw [List.getD_eq_getElem _ _ (by omega)]
  exact hrow _ (List.getElem_mem _)

theorem tableShape_foldl {N : ℕ} {β : Type}
    {f : List (List ℤ) → β → List (List ℤ)}
    (hf : ∀ t x, TableShape N t → TableShape N (f t x)) :
    ∀ (L : List β) (t : List (List ℤ)), TableShape N t →
      TableShape N (L.foldl f t) := by
  intro L
  induction L with
  | nil => intro t ht; exact ht
  | cons x L ih => intro t ht; exact ih _ (hf t x ht)

theorem tableShape_dpInit (N : ℕ) : TableShape N (dpInit N) := by
  refine ⟨by simp [dpInit], ?_⟩
  intro r hr
  rcases List.mem_or_eq_of_mem_set hr with h | h
  · rw [List.eq_of_mem_replicate h]; simp
  · subst h; simp

theorem tget_dpInit (N a b : ℕ) :
    tget (dpInit N) a b = if a = 0 ∧ b = 0 then 1 else 0 := by
  unfold tget dpInit
  rcases Nat.eq_zero_or_pos a with rfl | ha
  · rw [getD_set_self (by simp) _ _]
    rcases Nat.eq_zero_or_pos b with rfl | hb
    · rw [getD_set_self (by simp) _ _]; simp
    · rw [getD_set_ne (by omega) _ _, getD_replicate]
      have hb0 : ¬(0 = 0 ∧ b = 0) := by omega
      rw [if_neg hb0]
      split_ifs <;> rfl
  · rw [getD_set_ne (by omega) _ _, getD_replicate]
    by_cases h5 : a < 5
    · simp only [if_pos h5, getD_replicate]
      split_ifs <;> simp <;> omega
    · simp only [if_neg h5]
      simp
      omega

theorem tableShape_dpBump {N : ℕ} {t : List (List ℤ)} (ht : TableShape N t)
    {ns : ℕ} (hns : ns < 5) (c cs : ℕ) :
    TableShape N (dpBump c ns t cs) := by
  refine ⟨by simp [dpBump, ht.1], ?_⟩
  intro r hr
  rcases List.mem_or_eq_of_mem_set hr with h | h
  · exact ht.2 r h
  · subst h
    rw [List.length_set]
    exact ht.row_length hns

theorem tget_dpBump {N : ℕ} {t : List (List ℤ)} (ht : TableShape N t)
    {ns cs : ℕ} (hns : ns < 5) (hcs : cs ≤ N) (c a b : ℕ) :
    tget (dpBump c ns t cs) a b =
      if a = ns ∧ b = cs then tget t a b + tget t (a - 1) (b - c)
      else tget t a b := by
  unfold tget dpBump
  by_cases ha : a = ns
  · subst ha
    rw [getD_set_self (by rw [ht.1]; omega) _ _]
    by_cases hb : b = cs
    · subst hb
      rw [getD_set_self (by rw [ht.row_length hns]; omega) _ _]
      simp
    · rw [getD_set_ne hb _ _]
      simp [hb]
  · rw [getD_set_ne ha _ _]
    simp [ha]

theorem tget_foldl_dpBump {N c ns : ℕ} (hns1 : 1 ≤ ns) (hns : ns < 5) :
    ∀ (L : List ℕ), L.Nodup → (∀ x ∈ L, c ≤ x ∧ x ≤ N) →
      ∀ {t : List (List ℤ)}, TableShape N t → ∀ a b,
        tget (L.foldl (dpBump c ns) t) a b =
          if a = ns ∧ b ∈ L then tget t a b + tget t (a - 1) (b - c)
          else tget t a b := by
  intro L
  induction L with
  | nil => intro _ _ t ht a b; simp
  | cons x L ih =>
      intro hnd hmem t ht a b
      have hxN := hmem x (List.mem_cons_self x L)
      have hxL : x ∉ L := (List.nodup_cons.mp hnd).1
      have ht' := tableShape_dpBump ht hns c x
      rw [List.foldl_cons,
        ih (List.nodup_cons.mp hnd).2
          (fun y hy => hmem y (List.mem_cons_of_mem _ hy)) ht' a b]
      have hbump := tget_dpBump ht hns hxN.2 c
      have hne : ns - 1 ≠ ns := by omega
      simp only [hbump, List.mem_cons]
      by_cases ha : a = ns <;> by_cases hbx : b = x <;> by_cases hbL : b ∈ L
      · exact absurd (hbx ▸ hbL) hxL
      · subst hbx
        simp [ha, hbL, hne]
      · simp [ha, hbx, hbL, hne]
      · simp [ha, hbx, hbL]
      · exact absurd (hbx ▸ hbL) hxL
      · subst hbx
        simp [ha]
      · simp [ha, hbx, hbL]
      · simp [ha, hbx, hbL]

theorem tget_dpInner {N c ns : ℕ} (hns1 : 1 ≤ ns) (hns : ns < 5)
    {t : List (List ℤ)} (ht : TableShape N t) (a b : ℕ) :
    tget (dpInner N c ns t) a b =
      if a = ns ∧ c ≤ b ∧ b ≤ N then tget t a b + tget t (a - 1) (b - c)
      else tget t a b := by
  unfold dpInner
  rw [tget_foldl_dpBump hns1 hns _ (nodup_pyRangeDown N c)
      (fun x hx => mem_pyRangeDown.mp hx) ht a b]
  simp only [mem_pyRangeDown]

theorem tableShape_dpInner {N c ns : ℕ} (hns : ns < 5)
    {t : List (List ℤ)} (ht : TableShape N t) :
    TableShape N (dpInner N c ns t) := by
  unfold dpInner
  exact tableShape_foldl (fun t2 cs ht2 => tableShape_dpBump ht2 hns c cs) _ t ht

theorem tableShape_dpCandidate {N c : ℕ} {t : List (List ℤ)}
    (ht : TableShape N t) : TableShape N (dpCandidate N t c) := by
  have h4 : pyRangeDown 4 1 = [4, 3, 2, 1] := rfl
  unfold dpCandidate
  rw [h4]
  simp only [List.foldl_cons, List.foldl_nil]
  exact tableShape_dpInner (by omega)
    (tableShape_dpInner (by omega) (tableShape_dpInner (by omega)
      (tableShape_dpInner (by omega) ht)))

theorem tget_dpInner_layer {N c k : ℕ} (hk1 : 1 ≤ k) (hk : k ≤ 4)
    {t t' : List (List ℤ)} (ht' : TableShape N t')
    (hP : ∀ a b, tget t' a b =
      if k + 1 ≤ a ∧ a ≤ 4 ∧ c ≤ b ∧ b ≤ N then
        tget t a b + tget t (a - 1) (b - c)
      else tget t a b) (a b : ℕ) :
    tget (dpInner N c k t') a b =
      if k ≤ a ∧ a ≤ 4 ∧ c ≤ b ∧ b ≤ N then
        tget t a b + tget t (a - 1) (b - c)
      else tget t a b := by
  rw [tget_dpInner hk1 (by omega) ht']
  rw [hP a b, hP (a - 1) (b - c)]
  split_ifs <;> first | rfl | omega | (exfalso; omega)

theorem tget_dpCandidate {N c : ℕ} {t : List (List ℤ)}
    (ht : TableShape N t) (a b : ℕ) :
    tget (dpCandidate N t c) a b =
      if 1 ≤ a ∧ a ≤ 4 ∧ c ≤ b ∧ b ≤ N then
        tget t a b + tget t (a - 1) (b - c)
      else tget t a b := by
  have h4 : pyRangeDown 4 1 = [4, 3, 2, 1] := rfl
  unfold dpCandidate
  rw [h4]
  simp only [List.foldl_cons, List.foldl_nil]
  have s4 := @tableShape_dpInner N c 4 (by omega) _ ht
  have s3 := @tableShape_dpInner N c 3 (by omega) _ s4
  have s2 := @tableShape_dpInner N c 2 (by omega) _ s3
  have p5 : ∀ a b, tget t a b =
      if 5 ≤ a ∧ a ≤ 4 ∧ c ≤ b ∧ b ≤ N then
        tget t a b + tget t (a - 1) (b - c)
      else tget t a b := by
    intro a b
    rw [if_neg (by omega)]
  have p4 := fun a b => tget_dpInner_layer (k := 4) (by omega) (by omega) ht p5 a b
  have p3 := fun a b => tget_dpInner_layer (k := 3) (by omega) (by omega) s4 p4 a b
  have p2 := fun a b => tget_dpInner_layer (k := 2) (by omega) (by omega) s3 p3 a b
  have p1 := fun a b => tget_dpInner_layer (k := 1) (by omega) (by omega) s2 p2 a b
  exact p1 a b

theorem progressIter_eq (sp : Bool) (xs : List ℕ) (pd : Option String)
    (pp : Option ℤ) : progressIter sp xs pd pp = xs := by
  cases sp <;> rfl

theorem tableShape_foldl_dpCandidate (N : ℕ) (L : List ℕ) :
    TableShape N (L.foldl (dpCandidate N) (dpInit N)) :=
  tableShape_foldl (fun t c ht => tableShape_dpCandidate ht) L _
    (tableShape_dpInit N)

theorem tget_foldl_dpCandidate (N : ℕ) :
    ∀ (M : ℕ) {j : ℕ}, j ≤ 4 → ∀ {s : ℕ}, s ≤ N →
      tget ((List.range' 1 M).foldl (dpCandidate N) (dpInit N)) j s =
        ways M j s := by
  intro M
  induction M with
  | zero =>
      intro j hj s hs
      simp only [List.range'_zero, List.foldl_nil, tget_dpInit, ways]
      split_ifs <;> simp
  | succ v ih =>
      intro j hj s hs
      rw [List.range'_1_concat, List.foldl_append, List.foldl_cons,
        List.foldl_nil, Nat.add_comm 1 v]
      rw [tget_dpCandidate (tableShape_foldl_dpCandidate N _)]
      by_cases hcond : 1 ≤ j ∧ v + 1 ≤ s
      · rw [if_pos ⟨hcond.1, by omega, by omega, hs⟩]
        rw [ih hj hs, ih (by omega) (by omega)]
        simp only [ways]
        rw [if_pos (by omega)]
        push_cast
        rfl
      · rw [if_neg (by omega), ih hj hs]
        simp only [ways]
        rw [if_neg (by omega)]
        simp

theorem tget_dpTable (N M : ℕ) (sp : Bool) (pp : Option ℤ)
    (pd : Option String) {j s : ℕ} (hj : j ≤ 4) (hs : s ≤ N) :
    tget (dpTable N M sp pp pd) j s = ways M j s := by
  unfold dpTable
  rw [progressIter_eq]
  have hR : pyRange 1 (M + 1) = List.range' 1 M := rfl
  rw [hR]
  exact tget_foldl_dpCandidate N M hj hs

theorem count_quadruples_eq_ways {N M : ℤ} (h10 : 10 ≤ N)
    (hNM : N ≤ 4 * M - 6) (sp : Bool) (pp : Option ℤ) (pd : Option String) :
    count_quadruples N M sp pp pd = ways M.toNat 4 N.toNat := by
  unfold count_quadruples
  rw [if_neg (by omega)]
  exact tget_dpTable N.toNat M.toNat sp pp pd le_rfl le_rfl

/-! ## From the DP recurrence to subset counting -/

theorem ways_eq_subsetCount (v j s : ℕ) :
    ways v j s = subsetCount (fun x => x = s) v j := by
  induction v generalizing j s with
  | zero =>
      unfold subsetCount
      rw [Finset.Icc_eq_empty (by omega)]
      cases j with
      | zero =>
          rw [Finset.powersetCard_zero, Finset.filter_singleton]
          by_cases hs : s = 0
          · subst hs
            simp [ways]
          · simp [ways, hs, eq_comm]
      | succ j =>
          rw [Finset.powersetCard_eq_empty.mpr (by simp)]
          simp [ways]
  | succ v ih =>
      have hnot : v + 1 ∉ Finset.Icc 1 v := by simp
      have hins : Finset.Icc 1 (v + 1) = insert (v + 1) (Finset.Icc 1 v) :=
        (Nat.Icc_insert_succ_right (by omega)).symm
      cases j with
      | zero =>
          simp only [ways]
          rw [if_neg (by omega), ih 0 s]
          unfold subsetCount
          rw [Finset.powersetCard_zero, Finset.powersetCard_zero, Nat.add_zero]
      | succ j =>
          unfold subsetCount
          rw [hins, Finset.powersetCard_succ_insert hnot, Finset.filter_union]
          have hdisj : Disjoint
              ((Finset.powersetCard (j + 1) (Finset.Icc 1 v)).filter
                (fun A => A.sum id = s))
              (((Finset.powersetCard j (Finset.Icc 1 v)).image
                (insert (v + 1))).filter (fun A => A.sum id = s)) := by
            refine Finset.disjoint_filter_filter ?_
            rw [Finset.disjoint_left]
            intro A hA hA'
            rw [Finset.mem_powersetCard] at hA
            rcases Finset.mem_image.mp hA' with ⟨B, hB, rfl⟩
            exact hnot (hA.1 (Finset.mem_insert_self _ _))
          rw [Finset.card_union_of_disjoint hdisj]
          rw [Finset.filter_image]
          have hcongr : (Finset.powersetCard j (Finset.Icc 1 v)).filter
              (fun A => (insert (v + 1) A).sum id = s) =
            (Finset.powersetCard j (Finset.Icc 1 v)).filter
              (fun A => v + 1 + A.sum id = s) := by
            apply Finset.filter_congr
            intro A hA
            rw [Finset.mem_powersetCard] at hA
            have hvA : v + 1 ∉ A := fun h => hnot (hA.1 h)
            rw [Finset.sum_insert hvA]
            simp
          rw [hcongr]
          have hinj : Set.InjOn (insert (v + 1))
              ((((Finset.powersetCard j (Finset.Icc 1 v)).filter
                (fun A => v + 1 + A.sum id = s)) : Finset (Finset ℕ)) :
                  Set (Finset ℕ)) := by
            intro A1 h1 A2 h2 he
            simp only [Finset.coe_filter, Set.mem_setOf_eq] at h1 h2
            have n1 : v + 1 ∉ A1 := fun h =>
              hnot ((Finset.mem_powersetCard.mp h1.1).1 h)
            have n2 : v + 1 ∉ A2 := fun h =>
              hnot ((Finset.mem_powersetCard.mp h2.1).1 h)
            rw [← Finset.erase_insert n1, ← Finset.erase_insert n2, he]
          rw [Finset.card_image_of_injOn hinj]
          simp only [ways]
          rw [ih (j + 1) s]
          unfold subsetCount
          by_cases hvs : v + 1 ≤ s
          · rw [if_pos ⟨by omega, hvs⟩]
            have hsub : (Finset.powersetCard j (Finset.Icc 1 v)).filter
                (fun A => v + 1 + A.sum id = s) =
              (Finset.powersetCard j (Finset.Icc 1 v)).filter
                (fun A => A.sum id = s - (v + 1)) := by
              apply Finset.filter_congr
              intro A hA
              constructor
              · intro h; omega
              · intro h; omega
            rw [hsub]
            simp only [Nat.add_sub_cancel]
            rw [ih j (s - (v + 1))]
            unfold subsetCount
            rfl
          · rw [if_neg (by omega)]
            have hempty : (Finset.powersetCard j (Finset.Icc 1 v)).filter
                (fun A => v + 1 + A.sum id = s) = ∅ := by
              apply Finset.filter_eq_empty_iff.mpr
              intro A hA
              omega
            rw [hempty]
            simp

theorem list_length_four {α : Type} {L : List α} (h : L.length = 4) :
    ∃ a b c d, L = [a, b, c, d] := by
  rcases L with _ | ⟨a, _ | ⟨b, _ | ⟨c, _ | ⟨d, _ | ⟨e, L⟩⟩⟩⟩⟩
  · simp at h
  · simp at h
  · simp at h
  · simp at h
  · exact ⟨a, b, c, d, rfl⟩
  · simp at h

theorem quad_finset_card {a b c d : ℕ} (h1 : a < b) (h2 : b < c)
    (h3 : c < d) : ({a, b, c, d} : Finset ℕ).card = 4 := by
  rw [Finset.card_insert_of_not_mem (by simp; omega),
    Finset.card_insert_of_not_mem (by simp; omega),
    Finset.card_insert_of_not_mem (by simp; omega), Finset.card_singleton]

theorem quad_finset_sum {a b c d : ℕ} (h1 : a < b) (h2 : b < c)
    (h3 : c < d) : ({a, b, c, d} : Finset ℕ).sum id = a + b + c + d := by
  rw [Finset.sum_insert (by simp; omega), Finset.sum_insert (by simp; omega),
    Finset.sum_insert (by simp; omega), Finset.sum_singleton]
  simp only [id]
  omega

theorem quad_set_inj {a b c d a' b' c' d' : ℕ}
    (h1 : a < b) (h2 : b < c) (h3 : c < d)
    (h1' : a' < b') (h2' : b' < c') (h3' : c' < d')
    (hset : ({a, b, c, d} : Finset ℕ) = {a', b', c', d'}) :
    a = a' ∧ b = b' ∧ c = c' ∧ d = d' := by
  have hmem : ∀ x : ℕ, (x = a ∨ x = b ∨ x = c ∨ x = d) ↔
      (x = a' ∨ x = b' ∨ x = c' ∨ x = d') := by
    intro x
    have := Finset.ext_iff.mp hset x
    simpa using this
  have e1 := (hmem a).mp (Or.inl rfl)
  have e2 := (hmem b).mp (Or.inr (Or.inl rfl))
  have e3 := (hmem c).mp (Or.inr (Or.inr (Or.inl rfl)))
  have e4 := (hmem d).mp (Or.inr (Or.inr (Or.inr rfl)))
  have f1 := (hmem a').mpr (Or.inl rfl)
  have f2 := (hmem b').mpr (Or.inr (Or.inl rfl))
  have f3 := (hmem c').mpr (Or.inr (Or.inr (Or.inl rfl)))
  have f4 := (hmem d').mpr (Or.inr (Or.inr (Or.inr rfl)))
  omega

theorem quadCount_eq_subsetCount (p : ℕ → Prop) [DecidablePred p] (M : ℕ) :
    quadCount p M = subsetCount p M 4 := by
  unfold quadCount subsetCount
  apply Finset.card_bij
    (fun q _ => ({q.1, q.2.1, q.2.2.1, q.2.2.2} : Finset ℕ))
  · intro q hq
    simp only [Finset.mem_filter, Finset.mem_product, Finset.mem_Icc] at hq
    obtain ⟨⟨⟨ha1, ha2⟩, ⟨hb1, hb2⟩, ⟨hc1, hc2⟩, hd1, hd2⟩, hab, hbc, hcd, hp⟩ := hq
    rw [Finset.mem_filter, Finset.mem_powersetCard]
    refine ⟨⟨?_, quad_finset_card hab hbc hcd⟩, ?_⟩
    · intro x hx
      simp only [Finset.mem_insert, Finset.mem_singleton] at hx
      rw [Finset.mem_Icc]
      rcases hx with rfl | rfl | rfl | rfl <;> omega
    · rw [quad_finset_sum hab hbc hcd]
      exact hp
  · intro q1 hq1 q2 hq2 hset
    simp only [Finset.mem_filter, Finset.mem_product, Finset.mem_Icc] at hq1 hq2
    obtain ⟨-, hab, hbc, hcd, -⟩ := hq1
    obtain ⟨-, hab', hbc', hcd', -⟩ := hq2
    obtain ⟨e1, e2, e3, e4⟩ := quad_set_inj hab hbc hcd hab' hbc' hcd' hset
    obtain ⟨a, b, c, d⟩ := q1
    obtain ⟨a', b', c', d'⟩ := q2
    simp only at e1 e2 e3 e4
    simp [e1, e2, e3, e4]
  · intro A hA
    rw [Finset.mem_filter, Finset.mem_powersetCard] at hA
    obtain ⟨⟨hsub, hcard⟩, hp⟩ := hA
    have hlen : (A.sort (· ≤ ·)).length = 4 := by
      rw [Finset.length_sort]
      exact hcard
    obtain ⟨a, b, c, d, hLeq⟩ := list_length_four hlen
    have hsorted := Finset.sort_sorted_lt A
    rw [hLeq] at hsorted
    simp only [List.sorted_cons, List.mem_cons, List.not_mem_nil, or_false,
      List.mem_singleton, List.sorted_singleton] at hsorted
    have hab : a < b := hsorted.1 b (Or.inl rfl)
    have hbc : b < c := hsorted.2.1 c (Or.inl rfl)
    have hcd : c < d := hsorted.2.2.1 d rfl
    have hAeq : A = ({a, b, c, d} : Finset ℕ) := by
      apply Finset.ext
      intro x
      rw [← Finset.mem_sort (α := ℕ) (· ≤ ·), hLeq]
      simp
    have hmemA : ∀ x ∈ ({a, b, c, d} : Finset ℕ), 1 ≤ x ∧ x ≤ M := by
      intro x hx
      have := hsub (hAeq ▸ hx)
      rwa [Finset.mem_Icc] at this
    have hsum : p (a + b + c + d) := by
      rw [hAeq, quad_finset_sum hab hbc hcd] at hp
      exact hp
    refine ⟨(a, b, c, d), ?_, hAeq.symm⟩
    simp only [Finset.mem_filter, Finset.mem_product, Finset.mem_Icc]
    exact ⟨⟨hmemA a (by simp), hmemA b (by simp), hmemA c (by simp),
      hmemA d (by simp)⟩, hab, hbc, hcd, hsum⟩

/-! ## Bridging the integer-tuple counts to the natural-number counts -/

theorem quadCardZ_eq_quadCount (P : ℤ → Prop) [DecidablePred P]
    (p : ℕ → Prop) [DecidablePred p] (hPp : ∀ x : ℕ, P (x : ℤ) ↔ p x)
    (M : ℤ) :
    ((Finset.Icc 1 M ×ˢ Finset.Icc 1 M ×ˢ Finset.Icc 1 M ×ˢ
        Finset.Icc 1 M).filter
      (fun q : ℤ × ℤ × ℤ × ℤ => q.1 < q.2.1 ∧ q.2.1 < q.2.2.1 ∧
        q.2.2.1 < q.2.2.2 ∧ P (q.1 + q.2.1 + q.2.2.1 + q.2.2.2))).card =
      quadCount p M.toNat := by
  unfold quadCount
  apply Finset.card_nbij'
    (fun q : ℤ × ℤ × ℤ × ℤ =>
      (q.1.toNat, q.2.1.toNat, q.2.2.1.toNat, q.2.2.2.toNat))
    (fun q : ℕ × ℕ × ℕ × ℕ =>
      ((q.1 : ℤ), (q.2.1 : ℤ), (q.2.2.1 : ℤ), (q.2.2.2 : ℤ)))
  · intro q hq
    simp only [Finset.mem_filter, Finset.mem_product, Finset.mem_Icc] at hq ⊢
    obtain ⟨⟨⟨ha1, ha2⟩, ⟨hb1, hb2⟩, ⟨hc1, hc2⟩, hd1, hd2⟩, hab, hbc, hcd, hP⟩ := hq
    have hsum : q.1 + q.2.1 + q.2.2.1 + q.2.2.2 =
        ((q.1.toNat + q.2.1.toNat + q.2.2.1.toNat + q.2.2.2.toNat : ℕ) : ℤ) := by
      push_cast
      omega
    rw [hsum] at hP
    exact ⟨⟨by omega, by omega, by omega, by omega⟩, by omega, by omega,
      by omega, (hPp _).mp hP⟩
  · intro q hq
    simp only [Finset.mem_filter, Finset.mem_product, Finset.mem_Icc] at hq ⊢
    obtain ⟨⟨⟨ha1, ha2⟩, ⟨hb1, hb2⟩, ⟨hc1, hc2⟩, hd1, hd2⟩, hab, hbc, hcd, hp⟩ := hq
    refine ⟨⟨by omega, by omega, by omega, by omega⟩, by omega, by omega,
      by omega, ?_⟩
    have hsum : (q.1 : ℤ) + q.2.1 + q.2.2.1 + q.2.2.2 =
        ((q.1 + q.2.1 + q.2.2.1 + q.2.2.2 : ℕ) : ℤ) := by
      push_cast
      ring
    rw [hsum]
    exact (hPp _).mpr hp
  · intro q hq
    obtain ⟨a, b, c, d⟩ := q
    simp only [Finset.mem_filter, Finset.mem_product, Finset.mem_Icc] at hq
    simp only [Prod.mk.injEq]
    refine ⟨?_, ?_, ?_, ?_⟩ <;> omega
  · intro q hq
    obtain ⟨a, b, c, d⟩ := q
    simp only [Prod.mk.injEq]
    refine ⟨?_, ?_, ?_, ?_⟩ <;> omega

theorem specCount_eq_quadCount (N M : ℤ) (hN : 0 ≤ N) :
    specCount N M = quadCount (fun x => x = N.toNat) M.toNat := by
  unfold specCount
  exact quadCardZ_eq_quadCount (fun z => z = N) (fun x => x = N.toNat)
    (fun x => by omega) M

theorem specCount_eq_zero_of_out_of_range {N M : ℤ}
    (h : N < 10 ∨ N > 4 * M - 6) : specCount N M = 0 := by
  unfold specCount
  rw [Finset.card_eq_zero]
  apply Finset.filter_eq_empty_iff.mpr
  intro q hq
  simp only [Finset.mem_product, Finset.mem_Icc] at hq
  obtain ⟨⟨ha1, ha2⟩, ⟨hb1, hb2⟩, ⟨hc1, hc2⟩, hd1, hd2⟩ := hq
  rintro ⟨hab, hbc, hcd, hsum⟩
  omega

theorem count_quadruples_eq_specCount (N M : ℤ) (sp : Bool) (pp : Option ℤ)
    (pd : Option String) :
    count_quadruples N M sp pp pd = (specCount N M : ℤ) := by
  by_cases h : N < 10 ∨ N > 4 * M - 6
  · rw [specCount_eq_zero_of_out_of_range h]
    unfold count_quadruples
    rw [if_pos h]
    simp
  · push_neg at h
    rw [count_quadruples_eq_ways (by omega) (by omega) sp pp pd]
    congr 1
    rw [ways_eq_subsetCount, ← quadCount_eq_subsetCount,
      specCount_eq_quadCount N M (by omega)]

theorem specCount_reflection (N M : ℤ) :
    specCount N M = specCount (4 * M + 4 - N) M := by
  unfold specCount
  apply Finset.card_nbij'
    (fun q : ℤ × ℤ × ℤ × ℤ =>
      (M + 1 - q.2.2.2, M + 1 - q.2.2.1, M + 1 - q.2.1, M + 1 - q.1))
    (fun q : ℤ × ℤ × ℤ × ℤ =>
      (M + 1 - q.2.2.2, M + 1 - q.2.2.1, M + 1 - q.2.1, M + 1 - q.1))
  · intro q hq
    obtain ⟨a, b, c, d⟩ := q
    simp only [Finset.mem_filter, Finset.mem_product, Finset.mem_Icc] at hq ⊢
    omega
  · intro q hq
    obtain ⟨a, b, c, d⟩ := q
    simp only [Finset.mem_filter, Finset.mem_product, Finset.mem_Icc] at hq ⊢
    omega
  · intro q hq
    obtain ⟨a, b, c, d⟩ := q
    simp only [Prod.mk.injEq]
    refine ⟨?_, ?_, ?_, ?_⟩ <;> ring
  · intro q hq
    obtain ⟨a, b, c, d⟩ := q
    simp only [Prod.mk.injEq]
    refine ⟨?_, ?_, ?_, ?_⟩ <;> ring

theorem count_quadruples_reflection (N M : ℤ) :
    count_quadruples N M = count_quadruples (4 * M + 4 - N) M := by
  rw [count_quadruples_eq_specCount N M true none none,
    count_quadruples_eq_specCount (4 * M + 4 - N) M true none none,
    specCount_reflection N M]

/-! ## Correctness of the pair-sum engine -/

theorem foldl_incr_getD (off : ℕ) :
    ∀ (L : List ℕ), L.Nodup → ∀ (pc : List ℤ),
      (∀ x ∈ L, off + x < pc.length) → ∀ (s : ℕ),
      (L.foldl
        (fun pc fourth =>
          pc.set (off + fourth) (pc.getD (off + fourth) 0 + 1)) pc).getD s 0 =
        pc.getD s 0 + if ∃ x ∈ L, off + x = s then 1 else 0 := by
  intro L
  induction L with
  | nil => intro _ pc _ s; simp
  | cons x L ih =>
      intro hnd pc hlt s
      rw [List.foldl_cons]
      rw [ih (List.nodup_cons.mp hnd).2 _
        (fun y hy => by
          rw [List.length_set]
          exact hlt y (List.mem_cons_of_mem _ hy)) s]
      by_cases hsx : off + x = s
      · subst hsx
        rw [getD_set_self (hlt x (List.mem_cons_self x L)) _ _]
        have hnot : ¬ ∃ y ∈ L, off + y = off + x := by
          rintro ⟨y, hy, hxy⟩
          have hyx : y = x := by omega
          subst hyx
          exact (List.nodup_cons.mp hnd).1 hy
        rw [if_neg hnot, if_pos ⟨x, List.mem_cons_self x L, rfl⟩]
        ring
      · rw [getD_set_ne (fun h => hsx h.symm) _ _]
        by_cases hL : ∃ y ∈ L, off + y = s
        · obtain ⟨y, hy, hys⟩ := hL
          rw [if_pos ⟨y, hy, hys⟩,
            if_pos ⟨y, List.mem_cons_of_mem _ hy, hys⟩]
        · rw [if_neg hL, if_neg ?_]
          rintro ⟨y, hy, hys⟩
          rcases List.mem_cons.mp hy with rfl | hy'
          · exact hsx hys
          · exact hL ⟨y, hy', hys⟩

theorem length_registerPairs (M second : ℕ) (pc : List ℤ) :
    (registerPairs M second pc).length = pc.length := by
  unfold registerPairs
  generalize pyRange (second + 2) (M + 1) = L
  induction L generalizing pc with
  | nil => rfl
  | cons x L ih =>
      rw [List.foldl_cons, ih]
      exact List.length_set ..

theorem registerPairs_getD (M second : ℕ) (pc : List ℤ)
    (hlen : pc.length = 2 * M + 1) (hsec : second + 1 ≤ M) (s : ℕ) :
    (registerPairs M second pc).getD s 0 =
      pc.getD s 0 +
        if 2 * second + 3 ≤ s ∧ s ≤ M + second + 1 then 1 else 0 := by
  unfold registerPairs
  rw [foldl_incr_getD (second + 1) (pyRange (second + 2) (M + 1))
      (by unfold pyRange; exact List.nodup_range' ..) pc
      (fun x hx => by
        rw [hlen]
        have := mem_pyRange.mp hx
        omega) s]
  congr 1
  by_cases h : 2 * second + 3 ≤ s ∧ s ≤ M + second + 1
  · have hex : ∃ x ∈ pyRange (second + 2) (M + 1), second + 1 + x = s :=
      ⟨s - (second + 1), mem_pyRange.mpr (by omega), by omega⟩
    rw [if_pos hex, if_pos h]
  · have hex : ¬ ∃ x ∈ pyRange (second + 2) (M + 1), second + 1 + x = s := by
      rintro ⟨x, hx, hxs⟩
      have := mem_pyRange.mp hx
      omega
    rw [if_neg hex, if_neg h]

theorem pairCount_succ (M β s : ℕ) :
    pairCount M β s =
      pairCount M (β + 1) s +
        if 2 * β + 3 ≤ s ∧ s ≤ M + β + 1 then 1 else 0 := by
  unfold pairCount
  have hsplit : (Finset.Icc 1 M ×ˢ Finset.Icc 1 M).filter
      (fun cd => β < cd.1 ∧ cd.1 < cd.2 ∧ cd.1 + cd.2 = s) =
    ((Finset.Icc 1 M ×ˢ Finset.Icc 1 M).filter
      (fun cd => β + 1 < cd.1 ∧ cd.1 < cd.2 ∧ cd.1 + cd.2 = s)) ∪
    ((Finset.Icc 1 M ×ˢ Finset.Icc 1 M).filter
      (fun cd => cd.1 = β + 1 ∧ cd.1 < cd.2 ∧ cd.1 + cd.2 = s)) := by
    rw [← Finset.filter_or]
    apply Finset.filter_congr
    intro cd _
    constructor
    · rintro ⟨h1, h2, h3⟩
      rcases Nat.lt_or_ge (β + 1) cd.1 with h | h
      · exact Or.inl ⟨h, h2, h3⟩
      · exact Or.inr ⟨by omega, h2, h3⟩
    · rintro (⟨h1, h2, h3⟩ | ⟨h1, h2, h3⟩)
      · exact ⟨by omega, h2, h3⟩
      · exact ⟨by omega, h2, h3⟩
  have hdisj : Disjoint
      ((Finset.Icc 1 M ×ˢ Finset.Icc 1 M).filter
        (fun cd => β + 1 < cd.1 ∧ cd.1 < cd.2 ∧ cd.1 + cd.2 = s))
      ((Finset.Icc 1 M ×ˢ Finset.Icc 1 M).filter
        (fun cd => cd.1 = β + 1 ∧ cd.1 < cd.2 ∧ cd.1 + cd.2 = s)) := by
    rw [Finset.disjoint_left]
    intro cd h1 h2
    simp only [Finset.mem_filter] at h1 h2
    obtain ⟨-, hgt, -, -⟩ := h1
    obtain ⟨-, heq, -, -⟩ := h2
    omega
  rw [hsplit, Finset.card_union_of_disjoint hdisj]
  congr 1
  by_cases h : 2 * β + 3 ≤ s ∧ s ≤ M + β + 1
  · rw [if_pos h, Finset.card_eq_one]
    refine ⟨(β + 1, s - (β + 1)), ?_⟩
    apply Finset.ext
    intro cd
    obtain ⟨c, d⟩ := cd
    simp only [Finset.mem_filter, Finset.mem_product, Finset.mem_Icc,
      Finset.mem_singleton, Prod.mk.injEq]
    constructor
    · rintro ⟨⟨⟨hc1, hc2⟩, hd1, hd2⟩, he, hlt, hsum⟩
      omega
    · rintro ⟨rfl, rfl⟩
      omega
  · rw [if_neg h, Finset.card_eq_zero]
    apply Finset.filter_eq_empty_iff.mpr
    intro cd hcd
    obtain ⟨c, d⟩ := cd
    simp only [Finset.mem_product, Finset.mem_Icc] at hcd
    rintro ⟨he, hlt, hsum⟩
    omega

theorem pairCount_top (M β s : ℕ) (h : M ≤ β + 1) : pairCount M β s = 0 := by
  unfold pairCount
  rw [Finset.card_eq_zero]
  apply Finset.filter_eq_empty_iff.mpr
  intro cd hcd
  obtain ⟨c, d⟩ := cd
  simp only [Finset.mem_product, Finset.mem_Icc] at hcd
  rintro ⟨h1, h2, h3⟩
  omega

theorem pairCountZ_nonneg_eq (M β : ℕ) {t : ℤ} (ht : 0 ≤ t) :
    pairCountZ M β t = pairCount M β t.toNat := by
  unfold pairCountZ pairCount
  apply Finset.card_nbij' id id
  · intro cd hcd
    obtain ⟨c, d⟩ := cd
    simp only [Finset.mem_filter, Finset.mem_product, Finset.mem_Icc,
      id] at hcd ⊢
    omega
  · intro cd hcd
    obtain ⟨c, d⟩ := cd
    simp only [Finset.mem_filter, Finset.mem_product, Finset.mem_Icc,
      id] at hcd ⊢
    omega
  · intro cd _
    rfl
  · intro cd _
    rfl

theorem pairCountZ_neg (M β : ℕ) {t : ℤ} (ht : t < 0) :
    pairCountZ M β t = 0 := by
  unfold pairCountZ
  rw [Finset.card_eq_zero]
  apply Finset.filter_eq_empty_iff.mpr
  intro cd hcd
  obtain ⟨c, d⟩ := cd
  simp only [Finset.mem_product, Finset.mem_Icc] at hcd
  rintro ⟨h1, h2, h3⟩
  omega

theorem pairCountZ_large (M β : ℕ) {t : ℤ} (ht : 2 * M < t) :
    pairCountZ M β t = 0 := by
  unfold pairCountZ
  rw [Finset.card_eq_zero]
  apply Finset.filter_eq_empty_iff.mpr
  intro cd hcd
  obtain ⟨c, d⟩ := cd
  simp only [Finset.mem_product, Finset.mem_Icc] at hcd
  rintro ⟨h1, h2, h3⟩
  omega

theorem foldl_guard_add (C : ℕ → Prop) [DecidablePred C] (v : ℕ → ℤ) :
    ∀ (L : List ℕ) (tot : ℤ),
      L.foldl (fun tot first => if C first then tot + v first else tot)
          tot =
        tot + (L.map (fun first => if C first then v first else 0)).sum := by
  intro L
  induction L with
  | nil => intro tot; simp
  | cons x L ih =>
      intro tot
      rw [List.foldl_cons, List.map_cons, List.sum_cons]
      by_cases h : C x
      · rw [if_pos h, if_pos h, ih]
        ring
      · rw [if_neg h, if_neg h, ih]
        ring

theorem sum_map_range' (g : ℕ → ℤ) :
    ∀ (n s : ℕ),
      ((List.range' s n).map g).sum = ∑ x ∈ Finset.Ico s (s + n), g x := by
  intro n
  induction n with
  | zero => intro s; simp
  | succ n ih =>
      intro s
      rw [List.range'_succ, List.map_cons, List.sum_cons, ih (s + 1),
        @Finset.sum_eq_sum_Ico_succ_bot ℤ _ s (s + (n + 1)) (by omega) g]
      have hb : s + 1 + n = s + (n + 1) := by omega
      rw [hb]

theorem guard_hist_eq_pairCountZ (M β : ℕ) (pc : List ℤ)
    (hpc : ∀ s : ℕ, s ≤ 2 * M → pc.getD s 0 = pairCount M β s) (t : ℤ) :
    (if 0 ≤ t ∧ t ≤ 2 * M then pc.getD t.toNat 0 else 0) =
      (pairCountZ M β t : ℤ) := by
  by_cases h : 0 ≤ t ∧ t ≤ 2 * M
  · rw [if_pos h, hpc t.toNat (by omega), pairCountZ_nonneg_eq M β h.1]
  · rw [if_neg h]
    rcases not_and_or.mp h with h1 | h2
    · rw [pairCountZ_neg M β (by omega)]
      simp
    · rw [pairCountZ_large M β (by omega)]
      simp

theorem quadAtSecond_eq_sum (M : ℕ) (N : ℤ) (second : ℕ)
    (hsec : second ≤ M) :
    quadAtSecond M N second =
      ∑ a ∈ Finset.Ico 1 second, pairCountZ M second (N - second - a) := by
  unfold quadAtSecond
  rw [Finset.card_eq_sum_card_fiberwise (f := fun q => q.1)
    (t := Finset.Ico 1 second) (by
      intro q hq
      obtain ⟨a, b, c, d⟩ := q
      simp only [Finset.mem_filter, Finset.mem_product, Finset.mem_Icc] at hq
      simp only [Finset.mem_Ico]
      omega)]
  apply Finset.sum_congr rfl
  intro a ha
  rw [Finset.mem_Ico] at ha
  unfold pairCountZ
  apply Finset.card_nbij' (fun q => (q.2.2.1, q.2.2.2))
    (fun cd => (a, second, cd.1, cd.2))
  · intro q hq
    obtain ⟨a', b', c, d⟩ := q
    simp only [Finset.mem_filter, Finset.mem_product, Finset.mem_Icc,
      true_and, and_true] at hq ⊢
    omega
  · intro cd hcd
    obtain ⟨c, d⟩ := cd
    simp only [Finset.mem_filter, Finset.mem_product, Finset.mem_Icc,
      true_and, and_true] at hcd ⊢
    omega
  · intro q hq
    obtain ⟨a', b', c, d⟩ := q
    simp only [Finset.mem_filter, Finset.mem_product, Finset.mem_Icc] at hq
    simp only [Prod.mk.injEq, true_and, and_true]
    omega
  · intro cd _
    rfl

theorem queryFirsts_spec (M : ℕ) (N : ℤ) (second : ℕ) (hsec2 : 2 ≤ second)
    (hsec : second ≤ M) (pc : List ℤ)
    (hpc : ∀ s : ℕ, s ≤ 2 * M → pc.getD s 0 = pairCount M second s)
    (tot : ℤ) :
    queryFirsts M N second pc tot = tot + quadAtSecond M N second := by
  unfold queryFirsts
  rw [foldl_guard_add
    (fun first => 0 ≤ N - second - first ∧ N - second - first ≤ 2 * M)
    (fun first => pc.getD (N - second - first).toNat 0)]
  congr 1
  have hmap : (pyRange 1 second).map
      (fun (first : ℕ) =>
        if 0 ≤ N - second - first ∧ N - second - first ≤ 2 * M then
          pc.getD (N - second - first).toNat 0
        else 0) =
    (pyRange 1 second).map
      (fun (first : ℕ) => (pairCountZ M second (N - second - first) : ℤ)) := by
    apply List.map_congr_left
    intro x _
    exact guard_hist_eq_pairCountZ M second pc hpc _
  rw [hmap]
  unfold pyRange
  rw [sum_map_range'
    (fun (first : ℕ) => (pairCountZ M second (N - second - first) : ℤ))
    (second - 1) 1]
  have hseteq : Finset.Ico 1 (1 + (second - 1)) = Finset.Ico 1 second := by
    congr 1
    omega
  rw [hseteq, quadAtSecond_eq_sum M N second hsec]
  rw [Nat.cast_sum]

theorem pyRangeDown_cons {hi lo : ℕ} (h : lo ≤ hi + 1) :
    pyRangeDown (hi + 1) lo = (hi + 1) :: pyRangeDown hi lo := by
  unfold pyRangeDown
  have h1 : hi + 1 + 1 - lo = (hi + 1 - lo) + 1 := by omega
  rw [h1, List.range'_1_concat, List.reverse_append]
  have h2 : lo + (hi + 1 - lo) = hi + 1 := by omega
  rw [h2]
  rfl

theorem quadUpTo_le_one (M : ℕ) (N : ℤ) (B : ℕ) (hB : B ≤ 1) :
    quadUpTo M N B = 0 := by
  unfold quadUpTo
  rw [Finset.card_eq_zero]
  apply Finset.filter_eq_empty_iff.mpr
  intro q hq
  obtain ⟨a, b, c, d⟩ := q
  simp only [Finset.mem_product, Finset.mem_Icc] at hq
  rintro ⟨h1, h2, h3, h4, h5⟩
  omega

theorem quadUpTo_succ (M : ℕ) (N : ℤ) (B : ℕ) :
    quadUpTo M N (B + 1) = quadUpTo M N B + quadAtSecond M N (B + 1) := by
  unfold quadUpTo quadAtSecond
  have hsplit : (Finset.Icc 1 M ×ˢ Finset.Icc 1 M ×ˢ Finset.Icc 1 M ×ˢ
      Finset.Icc 1 M).filter
      (fun q => q.1 < q.2.1 ∧ q.2.1 < q.2.2.1 ∧ q.2.2.1 < q.2.2.2 ∧
        q.2.1 ≤ B + 1 ∧ (q.1 : ℤ) + q.2.1 + q.2.2.1 + q.2.2.2 = N) =
    ((Finset.Icc 1 M ×ˢ Finset.Icc 1 M ×ˢ Finset.Icc 1 M ×ˢ
      Finset.Icc 1 M).filter
      (fun q => q.1 < q.2.1 ∧ q.2.1 < q.2.2.1 ∧ q.2.2.1 < q.2.2.2 ∧
        q.2.1 ≤ B ∧ (q.1 : ℤ) + q.2.1 + q.2.2.1 + q.2.2.2 = N)) ∪
    ((Finset.Icc 1 M ×ˢ Finset.Icc 1 M ×ˢ Finset.Icc 1 M ×ˢ
      Finset.Icc 1 M).filter
      (fun q => q.1 < q.2.1 ∧ q.2.1 < q.2.2.1 ∧ q.2.2.1 < q.2.2.2 ∧
        q.2.1 = B + 1 ∧ (q.1 : ℤ) + q.2.1 + q.2.2.1 + q.2.2.2 = N)) := by
    rw [← Finset.filter_or]
    apply Finset.filter_congr
    intro q _
    constructor
    · rintro ⟨h1, h2, h3, h4, h5⟩
      by_cases hb : q.2.1 ≤ B
      · exact Or.inl ⟨h1, h2, h3, hb, h5⟩
      · exact Or.inr ⟨h1, h2, h3, by omega, h5⟩
    · rintro (⟨h1, h2, h3, h4, h5⟩ | ⟨h1, h2, h3, h4, h5⟩)
      · exact ⟨h1, h2, h3, by omega, h5⟩
      · exact ⟨h1, h2, h3, by omega, h5⟩
  have hdisj : Disjoint
      ((Finset.Icc 1 M ×ˢ Finset.Icc 1 M ×ˢ Finset.Icc 1 M ×ˢ
        Finset.Icc 1 M).filter
        (fun q => q.1 < q.2.1 ∧ q.2.1 < q.2.2.1 ∧ q.2.2.1 < q.2.2.2 ∧
          q.2.1 ≤ B ∧ (q.1 : ℤ) + q.2.1 + q.2.2.1 + q.2.2.2 = N))
      ((Finset.Icc 1 M ×ˢ Finset.Icc 1 M ×ˢ Finset.Icc 1 M ×ˢ
        Finset.Icc 1 M).filter
        (fun q => q.1 < q.2.1 ∧ q.2.1 < q.2.2.1 ∧ q.2.2.1 < q.2.2.2 ∧
          q.2.1 = B + 1 ∧ (q.1 : ℤ) + q.2.1 + q.2.2.1 + q.2.2.2 = N)) := by
    rw [Finset.disjoint_left]
    intro q h1 h2
    simp only [Finset.mem_filter] at h1 h2
    obtain ⟨-, -, -, -, hle, -⟩ := h1
    obtain ⟨-, -, -, -, heq, -⟩ := h2
    omega
  rw [hsplit, Finset.card_union_of_disjoint hdisj]

theorem pair_fold_spec (M : ℕ) (N : ℤ) :
    ∀ (b : ℕ), b ≤ M - 2 → ∀ (pc : List ℤ) (tot : ℤ),
      pc.length = 2 * M + 1 →
      (∀ s : ℕ, s ≤ 2 * M → pc.getD s 0 = pairCount M (b + 1) s) →
      ((pyRangeDown b 2).foldl (pairSweepStep M N) (pc, tot)).2 =
        tot + quadUpTo M N b := by
  intro b
  induction b with
  | zero =>
      intro _ pc tot _ _
      rw [show pyRangeDown 0 2 = [] from rfl, List.foldl_nil,
        quadUpTo_le_one M N 0 (by omega)]
      simp
  | succ b ih =>
      intro hb pc tot hlen hpc
      by_cases hb1 : b + 1 < 2
      · have hb0 : b = 0 := by omega
        subst hb0
        rw [show pyRangeDown 1 2 = [] from rfl, List.foldl_nil,
          quadUpTo_le_one M N 1 (by omega)]
        simp
      · rw [pyRangeDown_cons (by omega), List.foldl_cons]
        have hstep : pairSweepStep M N (pc, tot) (b + 1) =
            (registerPairs M (b + 1) pc,
              queryFirsts M N (b + 1) (registerPairs M (b + 1) pc) tot) := by
          rfl
        rw [hstep]
        have hlen' : (registerPairs M (b + 1) pc).length = 2 * M + 1 := by
          rw [length_registerPairs]
          exact hlen
        have hsecM : b + 1 + 1 ≤ M := by omega
        have hpc' : ∀ s : ℕ, s ≤ 2 * M →
            (registerPairs M (b + 1) pc).getD s 0 =
              pairCount M (b + 1) s := by
          intro s hs
          rw [registerPairs_getD M (b + 1) pc hlen (by omega) s, hpc s hs,
            pairCount_succ M (b + 1) s]
          push_cast
          ring
        rw [queryFirsts_spec M N (b + 1) (by omega) (by omega) _ hpc' tot]
        rw [ih (by omega) _ _ hlen' hpc']
        rw [quadUpTo_succ M N b]
        push_cast
        ring

theorem quadUpTo_full (M' : ℕ) (N : ℤ) (hN : 0 ≤ N) :
    quadUpTo M' N (M' - 2) = quadCount (fun x => x = N.toNat) M' := by
  unfold quadUpTo quadCount
  congr 1
  apply Finset.filter_congr
  intro q hq
  obtain ⟨a, b, c, d⟩ := q
  simp only [Finset.mem_product, Finset.mem_Icc] at hq
  dsimp only
  constructor
  · rintro ⟨h1, h2, h3, h4, h5⟩
    exact ⟨h1, h2, h3, by omega⟩
  · rintro ⟨h1, h2, h3, h5⟩
    exact ⟨h1, h2, h3, by omega, by omega⟩

theorem count_quadruples_pair_sum_eq_specCount (N M : ℤ) (sp : Bool)
    (pp : Option ℤ) (pd : Option String) :
    count_quadruples_pair_sum N M sp pp pd = (specCount N M : ℤ) := by
  by_cases h : N < 10 ∨ N > 4 * M - 6
  · rw [specCount_eq_zero_of_out_of_range h]
    unfold count_quadruples_pair_sum
    rw [if_pos h]
    simp
  · push_neg at h
    unfold count_quadruples_pair_sum
    rw [if_neg (by omega), progressIter_eq]
    have hfold := pair_fold_spec M.toNat N (M.toNat - 2) le_rfl
      (List.replicate (2 * M.toNat + 1) (0 : ℤ)) 0
      (by rw [List.length_replicate])
      (by
        intro s hs
        rw [getD_replicate, if_pos (by omega),
          pairCount_top M.toNat (M.toNat - 2 + 1) s (by omega)]
        simp)
    rw [hfold, quadUpTo_full M.toNat N (by omega),
      specCount_eq_quadCount N M (by omega)]
    simp

/-! ## Character sums over 4-element subsets -/

theorem esum_zero {R : Type} [CommRing R] (w : ℕ → R) (s : Finset ℕ) :
    esum w s 0 = 1 := by
  unfold esum
  rw [Finset.powersetCard_zero, Finset.sum_singleton, Finset.prod_empty]

theorem esum_insert {R : Type} [CommRing R] (w : ℕ → R) {a : ℕ}
    {s : Finset ℕ} (ha : a ∉ s) (k : ℕ) :
    esum w (insert a s) (k + 1) =
      esum w s (k + 1) + w a * esum w s k := by
  unfold esum
  rw [Finset.powersetCard_succ_insert ha]
  have hdisj : Disjoint (s.powersetCard (k + 1))
      ((s.powersetCard k).image (insert a)) := by
    rw [Finset.disjoint_left]
    intro A hA hA'
    rw [Finset.mem_powersetCard] at hA
    rcases Finset.mem_image.mp hA' with ⟨B, hB, rfl⟩
    exact ha (hA.1 (Finset.mem_insert_self _ _))
  rw [Finset.sum_union hdisj]
  congr 1
  rw [Finset.sum_image ?_]
  · rw [Finset.mul_sum]
    apply Finset.sum_congr rfl
    intro A hA
    rw [Finset.mem_powersetCard] at hA
    exact Finset.prod_insert (fun h => ha (hA.1 h))
  · intro A hA B hB he
    rw [Finset.mem_powersetCard] at hA hB
    have hA' : a ∉ A := fun h => ha (hA.1 h)
    have hB' : a ∉ B := fun h => ha (hB.1 h)
    rw [← Finset.erase_insert hA', ← Finset.erase_insert hB', he]

theorem esum_neg_one_blocks (m : ℕ) :
    esum (fun x => (-1 : ℤ) ^ x) (Finset.Icc 1 (2 * m)) 1 = 0 ∧
    esum (fun x => (-1 : ℤ) ^ x) (Finset.Icc 1 (2 * m)) 2 = -(m : ℤ) ∧
    esum (fun x => (-1 : ℤ) ^ x) (Finset.Icc 1 (2 * m)) 3 = 0 ∧
    esum (fun x => (-1 : ℤ) ^ x) (Finset.Icc 1 (2 * m)) 4 =
      (m.choose 2 : ℤ) := by
  induction m with
  | zero =>
      refine ⟨?_, ?_, ?_, ?_⟩ <;>
        · unfold esum
          rw [show 2 * 0 = 0 from rfl, Finset.Icc_eq_empty (by omega),
            Finset.powersetCard_eq_empty.mpr (by simp)]
          simp
  | succ m ih =>
      obtain ⟨h1, h2, h3, h4⟩ := ih
      have hodd : (-1 : ℤ) ^ (2 * m + 1) = -1 := Odd.neg_one_pow ⟨m, by ring⟩
      have heven : (-1 : ℤ) ^ (2 * m + 2) = 1 :=
        Even.neg_one_pow ⟨m + 1, by ring⟩
      have hna : (2 * m + 1) ∉ Finset.Icc 1 (2 * m) := by
        simp [Finset.mem_Icc]
      have hnb : (2 * m + 2) ∉ insert (2 * m + 1) (Finset.Icc 1 (2 * m)) := by
        simp only [Finset.mem_insert, Finset.mem_Icc]
        omega
      have hs : Finset.Icc 1 (2 * (m + 1)) =
          insert (2 * m + 2) (insert (2 * m + 1) (Finset.Icc 1 (2 * m))) := by
        rw [show 2 * (m + 1) = (2 * m + 1) + 1 by ring,
          ← Nat.Icc_insert_succ_right (by omega),
          ← Nat.Icc_insert_succ_right (by omega)]
      have ha0 : esum (fun x => (-1 : ℤ) ^ x)
          (insert (2 * m + 1) (Finset.Icc 1 (2 * m))) 0 = 1 := esum_zero _ _
      have ha1 : esum (fun x => (-1 : ℤ) ^ x)
          (insert (2 * m + 1) (Finset.Icc 1 (2 * m))) 1 =
          esum (fun x => (-1 : ℤ) ^ x) (Finset.Icc 1 (2 * m)) 1 +
            (-1 : ℤ) ^ (2 * m + 1) *
              esum (fun x => (-1 : ℤ) ^ x) (Finset.Icc 1 (2 * m)) 0 :=
        esum_insert _ hna 0
      have ha2 : esum (fun x => (-1 : ℤ) ^ x)
          (insert (2 * m + 1) (Finset.Icc 1 (2 * m))) 2 =
          esum (fun x => (-1 : ℤ) ^ x) (Finset.Icc 1 (2 * m)) 2 +
            (-1 : ℤ) ^ (2 * m + 1) *
              esum (fun x => (-1 : ℤ) ^ x) (Finset.Icc 1 (2 * m)) 1 :=
        esum_insert _ hna 1
      have ha3 : esum (fun x => (-1 : ℤ) ^ x)
          (insert (2 * m + 1) (Finset.Icc 1 (2 * m))) 3 =
          esum (fun x => (-1 : ℤ) ^ x) (Finset.Icc 1 (2 * m)) 3 +
            (-1 : ℤ) ^ (2 * m + 1) *
              esum (fun x => (-1 : ℤ) ^ x) (Finset.Icc 1 (2 * m)) 2 :=
        esum_insert _ hna 2
      have ha4 : esum (fun x => (-1 : ℤ) ^ x)
          (insert (2 * m + 1) (Finset.Icc 1 (2 * m))) 4 =
          esum (fun x => (-1 : ℤ) ^ x) (Finset.Icc 1 (2 * m)) 4 +
            (-1 : ℤ) ^ (2 * m + 1) *
              esum (fun x => (-1 : ℤ) ^ x) (Finset.Icc 1 (2 * m)) 3 :=
        esum_insert _ hna 3
      rw [hodd, h1, esum_zero] at ha1
      rw [hodd, h1, h2] at ha2
      rw [hodd, h2, h3] at ha3
      rw [hodd, h3, h4] at ha4
      norm_num at ha1 ha2 ha3 ha4
      have hb1 : esum (fun x => (-1 : ℤ) ^ x)
          (insert (2 * m + 2) (insert (2 * m + 1) (Finset.Icc 1 (2 * m)))) 1 =
          esum (fun x => (-1 : ℤ) ^ x)
            (insert (2 * m + 1) (Finset.Icc 1 (2 * m))) 1 +
            (-1 : ℤ) ^ (2 * m + 2) *
              esum (fun x => (-1 : ℤ) ^ x)
                (insert (2 * m + 1) (Finset.Icc 1 (2 * m))) 0 :=
        esum_insert _ hnb 0
      have hb2 : esum (fun x => (-1 : ℤ) ^ x)
          (insert (2 * m + 2) (insert (2 * m + 1) (Finset.Icc 1 (2 * m)))) 2 =
          esum (fun x => (-1 : ℤ) ^ x)
            (insert (2 * m + 1) (Finset.Icc 1 (2 * m))) 2 +
            (-1 : ℤ) ^ (2 * m + 2) *
              esum (fun x => (-1 : ℤ) ^ x)
                (insert (2 * m + 1) (Finset.Icc 1 (2 * m))) 1 :=
        esum_insert _ hnb 1
      have hb3 : esum (fun x => (-1 : ℤ) ^ x)
          (insert (2 * m + 2) (insert (2 * m + 1) (Finset.Icc 1 (2 * m)))) 3 =
          esum (fun x => (-1 : ℤ) ^ x)
            (insert (2 * m + 1) (Finset.Icc 1 (2 * m))) 3 +
            (-1 : ℤ) ^ (2 * m + 2) *
              esum (fun x => (-1 : ℤ) ^ x)
                (insert (2 * m + 1) (Finset.Icc 1 (2 * m))) 2 :=
        esum_insert _ hnb 2
      have hb4 : esum (fun x => (-1 : ℤ) ^ x)
          (insert (2 * m + 2) (insert (2 * m + 1) (Finset.Icc 1 (2 * m)))) 4 =
          esum (fun x => (-1 : ℤ) ^ x)
            (insert (2 * m + 1) (Finset.Icc 1 (2 * m))) 4 +
            (-1 : ℤ) ^ (2 * m + 2) *
              esum (fun x => (-1 : ℤ) ^ x)
                (insert (2 * m + 1) (Finset.Icc 1 (2 * m))) 3 :=
        esum_insert _ hnb 3
      rw [heven, ha1, ha0] at hb1
      rw [heven, ha2, ha1] at hb2
      rw [heven, ha3, ha2] at hb3
      rw [heven, ha4, ha3] at hb4
      refine ⟨?_, ?_, ?_, ?_⟩ <;> rw [hs]
      · rw [hb1]
        ring
      · rw [hb2]
        push_cast
        ring
      · rw [hb3]
        ring
      · rw [hb4, show (m + 1).choose 2 = m.choose 1 + m.choose 2 from
          Nat.choose_succ_succ m 1]
        push_cast
        rw [Nat.choose_one_right]
        push_cast
        ring

theorem esum_gi_blocks (q : ℕ) :
    esum (fun x => gi ^ x) (Finset.Icc 1 (4 * q)) 1 = 0 ∧
    esum (fun x => gi ^ x) (Finset.Icc 1 (4 * q)) 2 = 0 ∧
    esum (fun x => gi ^ x) (Finset.Icc 1 (4 * q)) 3 = 0 ∧
    esum (fun x => gi ^ x) (Finset.Icc 1 (4 * q)) 4 = -(q : GaussianInt) := by
  have hI2 : gi ^ 2 = -1 := by decide
  have hI4 : gi ^ 4 = 1 := by
    rw [show (4 : ℕ) = 2 * 2 from rfl, pow_mul, hI2]
    ring
  induction q with
  | zero =>
      refine ⟨?_, ?_, ?_, ?_⟩ <;>
        · unfold esum
          rw [show 4 * 0 = 0 from rfl, Finset.Icc_eq_empty (by omega),
            Finset.powersetCard_eq_empty.mpr (by simp)]
          simp
  | succ q ih =>
      obtain ⟨h1, h2, h3, h4⟩ := ih
      have hp : ∀ r : ℕ, gi ^ (4 * q + r) = gi ^ r := by
        intro r
        rw [pow_add, pow_mul, hI4, one_pow, one_mul]
      have hs : Finset.Icc 1 (4 * (q + 1)) =
          insert (4 * q + 4) (insert (4 * q + 3) (insert (4 * q + 2)
            (insert (4 * q + 1) (Finset.Icc 1 (4 * q))))) := by
        rw [show 4 * (q + 1) = (4 * q + 3) + 1 by ring,
          ← Nat.Icc_insert_succ_right (by omega),
          show 4 * q + 3 = (4 * q + 2) + 1 by ring,
          ← Nat.Icc_insert_succ_right (by omega),
          show 4 * q + 2 = (4 * q + 1) + 1 by ring,
          ← Nat.Icc_insert_succ_right (by omega),
          show 4 * q + 1 = (4 * q) + 1 by ring,
          ← Nat.Icc_insert_succ_right (by omega)]
      have hn1 : (4 * q + 1) ∉ Finset.Icc 1 (4 * q) := by
        simp [Finset.mem_Icc]
      have hn2 : (4 * q + 2) ∉ insert (4 * q + 1) (Finset.Icc 1 (4 * q)) := by
        simp only [Finset.mem_insert, Finset.mem_Icc]
        omega
      have hn3 : (4 * q + 3) ∉ insert (4 * q + 2)
          (insert (4 * q + 1) (Finset.Icc 1 (4 * q))) := by
        simp only [Finset.mem_insert, Finset.mem_Icc]
        omega
      have hn4 : (4 * q + 4) ∉ insert (4 * q + 3) (insert (4 * q + 2)
          (insert (4 * q + 1) (Finset.Icc 1 (4 * q)))) := by
        simp only [Finset.mem_insert, Finset.mem_Icc]
        omega
      have a1 : esum (fun x => gi ^ x) (insert (4 * q + 1) (Finset.Icc 1 (4 * q))) 1 =
          esum (fun x => gi ^ x) (Finset.Icc 1 (4 * q)) 1 + gi ^ (4 * q + 1) * esum (fun x => gi ^ x) (Finset.Icc 1 (4 * q)) 0 :=
        esum_insert _ hn1 0
      have a2 : esum (fun x => gi ^ x) (insert (4 * q + 1) (Finset.Icc 1 (4 * q))) 2 =
          esum (fun x => gi ^ x) (Finset.Icc 1 (4 * q)) 2 + gi ^ (4 * q + 1) * esum (fun x => gi ^ x) (Finset.Icc 1 (4 * q)) 1 :=
        esum_insert _ hn1 1
      have a3 : esum (fun x => gi ^ x) (insert (4 * q + 1) (Finset.Icc 1 (4 * q))) 3 =
          esum (fun x => gi ^ x) (Finset.Icc 1 (4 * q)) 3 + gi ^ (4 * q + 1) * esum (fun x => gi ^ x) (Finset.Icc 1 (4 * q)) 2 :=
        esum_insert _ hn1 2
      have a4 : esum (fun x => gi ^ x) (insert (4 * q + 1) (Finset.Icc 1 (4 * q))) 4 =
          esum (fun x => gi ^ x) (Finset.Icc 1 (4 * q)) 4 + gi ^ (4 * q + 1) * esum (fun x => gi ^ x) (Finset.Icc 1 (4 * q)) 3 :=
        esum_insert _ hn1 3
      have b1 : esum (fun x => gi ^ x) (insert (4 * q + 2) (insert (4 * q + 1) (Finset.Icc 1 (4 * q)))) 1 =
          esum (fun x => gi ^ x) (insert (4 * q + 1) (Finset.Icc 1 (4 * q))) 1 + gi ^ (4 * q + 2) * esum (fun x => gi ^ x) (insert (4 * q + 1) (Finset.Icc 1 (4 * q))) 0 :=
        esum_insert _ hn2 0
      have b2 : esum (fun x => gi ^ x) (insert (4 * q + 2) (insert (4 * q + 1) (Finset.Icc 1 (4 * q)))) 2 =
          esum (fun x => gi ^ x) (insert (4 * q + 1) (Finset.Icc 1 (4 * q))) 2 + gi ^ (4 * q + 2) * esum (fun x => gi ^ x) (insert (4 * q + 1) (Finset.Icc 1 (4 * q))) 1 :=
        esum_insert _ hn2 1
      have b3 : esum (fun x => gi ^ x) (insert (4 * q + 2) (insert (4 * q + 1) (Finset.Icc 1 (4 * q)))) 3 =
          esum (fun x => gi ^ x) (insert (4 * q + 1) (Finset.Icc 1 (4 * q))) 3 + gi ^ (4 * q + 2) * esum (fun x => gi ^ x) (insert (4 * q + 1) (Finset.Icc 1 (4 * q))) 2 :=
        esum_insert _ hn2 2
      have b4 : esum (fun x => gi ^ x) (insert (4 * q + 2) (insert (4 * q + 1) (Finset.Icc 1 (4 * q)))) 4 =
          esum (fun x => gi ^ x) (insert (4 * q + 1) (Finset.Icc 1 (4 * q))) 4 + gi ^ (4 * q + 2) * esum (fun x => gi ^ x) (insert (4 * q + 1) (Finset.Icc 1 (4 * q))) 3 :=
        esum_insert _ hn2 3
      have c1 : esum (fun x => gi ^ x) (insert (4 * q + 3) (insert (4 * q + 2) (insert (4 * q + 1) (Finset.Icc 1 (4 * q))))) 1 =
          esum (fun x => gi ^ x) (insert (4 * q + 2) (insert (4 * q + 1) (Finset.Icc 1 (4 * q)))) 1 + gi ^ (4 * q + 3) * esum (fun x => gi ^ x) (insert (4 * q + 2) (insert (4 * q + 1) (Finset.Icc 1 (4 * q)))) 0 :=
        esum_insert _ hn3 0
      have c2 : esum (fun x => gi ^ x) (insert (4 * q + 3) (insert (4 * q + 2) (insert (4 * q + 1) (Finset.Icc 1 (4 * q))))) 2 =
          esum (fun x => gi ^ x) (insert (4 * q + 2) (insert (4 * q + 1) (Finset.Icc 1 (4 * q)))) 2 + gi ^ (4 * q + 3) * esum (fun x => gi ^ x) (insert (4 * q + 2) (insert (4 * q + 1) (Finset.Icc 1 (4 * q)))) 1 :=
        esum_insert _ hn3 1
      have c3 : esum (fun x => gi ^ x) (insert (4 * q + 3) (insert (4 * q + 2) (insert (4 * q + 1) (Finset.Icc 1 (4 * q))))) 3 =
          esum (fun x => gi ^ x) (insert (4 * q + 2) (insert (4 * q + 1) (Finset.Icc 1 (4 * q)))) 3 + gi ^ (4 * q + 3) * esum (fun x => gi ^ x) (insert (4 * q + 2) (insert (4 * q + 1) (Finset.Icc 1 (4 * q)))) 2 :=
        esum_insert _ hn3 2
      have c4 : esum (fun x => gi ^ x) (insert (4 * q + 3) (insert (4 * q + 2) (insert (4 * q + 1) (Finset.Icc 1 (4 * q))))) 4 =
          esum (fun x => gi ^ x) (insert (4 * q + 2) (insert (4 * q + 1) (Finset.Icc 1 (4 * q)))) 4 + gi ^ (4 * q + 3) * esum (fun x => gi ^ x) (insert (4 * q + 2) (insert (4 * q + 1) (Finset.Icc 1 (4 * q)))) 3 :=
        esum_insert _ hn3 3
      have d1 : esum (fun x => gi ^ x) (insert (4 * q + 4) (insert (4 * q + 3) (insert (4 * q + 2) (insert (4 * q + 1) (Finset.Icc 1 (4 * q)))))) 1 =
          esum (fun x => gi ^ x) (insert (4 * q + 3) (insert (4 * q + 2) (insert (4 * q + 1) (Finset.Icc 1 (4 * q))))) 1 + gi ^ (4 * q + 4) * esum (fun x => gi ^ x) (insert (4 * q + 3) (insert (4 * q + 2) (insert (4 * q + 1) (Finset.Icc 1 (4 * q))))) 0 :=
        esum_insert _ hn4 0
      have d2 : esum (fun x => gi ^ x) (insert (4 * q + 4) (insert (4 * q + 3) (insert (4 * q + 2) (insert (4 * q + 1) (Finset.Icc 1 (4 * q)))))) 2 =
          esum (fun x => gi ^ x) (insert (4 * q + 3) (insert (4 * q + 2) (insert (4 * q + 1) (Finset.Icc 1 (4 * q))))) 2 + gi ^ (4 * q + 4) * esum (fun x => gi ^ x) (insert (4 * q + 3) (insert (4 * q + 2) (insert (4 * q + 1) (Finset.Icc 1 (4 * q))))) 1 :=
        esum_insert _ hn4 1
      have d3 : esum (fun x => gi ^ x) (insert (4 * q + 4) (insert (4 * q + 3) (insert (4 * q + 2) (insert (4 * q + 1) (Finset.Icc 1 (4 * q)))))) 3 =
          esum (fun x => gi ^ x) (insert (4 * q + 3) (insert (4 * q + 2) (insert (4 * q + 1) (Finset.Icc 1 (4 * q))))) 3 + gi ^ (4 * q + 4) * esum (fun x => gi ^ x) (insert (4 * q + 3) (insert (4 * q + 2) (insert (4 * q + 1) (Finset.Icc 1 (4 * q))))) 2 :=
        esum_insert _ hn4 2
      have d4 : esum (fun x => gi ^ x) (insert (4 * q + 4) (insert (4 * q + 3) (insert (4 * q + 2) (insert (4 * q + 1) (Finset.Icc 1 (4 * q)))))) 4 =
          esum (fun x => gi ^ x) (insert (4 * q + 3) (insert (4 * q + 2) (insert (4 * q + 1) (Finset.Icc 1 (4 * q))))) 4 + gi ^ (4 * q + 4) * esum (fun x => gi ^ x) (insert (4 * q + 3) (insert (4 * q + 2) (insert (4 * q + 1) (Finset.Icc 1 (4 * q))))) 3 :=
        esum_insert _ hn4 3
      have ha0 : esum (fun x => gi ^ x) (insert (4 * q + 1) (Finset.Icc 1 (4 * q))) 0 = 1 := esum_zero _ _
      have hb0 : esum (fun x => gi ^ x) (insert (4 * q + 2) (insert (4 * q + 1) (Finset.Icc 1 (4 * q)))) 0 = 1 := esum_zero _ _
      have hc0 : esum (fun x => gi ^ x) (insert (4 * q + 3) (insert (4 * q + 2) (insert (4 * q + 1) (Finset.Icc 1 (4 * q))))) 0 = 1 := esum_zero _ _
      rw [hp 1, h1, esum_zero] at a1
      rw [hp 1, h1, h2] at a2
      rw [hp 1, h2, h3] at a3
      rw [hp 1, h3, h4] at a4
      norm_num at a1 a2 a3 a4
      rw [hp 2, ha0, a1] at b1
      rw [hp 2, a1, a2] at b2
      rw [hp 2, a2, a3] at b3
      rw [hp 2, a3, a4] at b4
      rw [hI2] at b1 b2 b3 b4
      norm_num at b1 b2 b3 b4
      rw [hp 3, hb0, b1] at c1
      rw [hp 3, b1, b2] at c2
      rw [hp 3, b2, b3] at c3
      rw [hp 3, b3, b4] at c4
      have hI3 : gi ^ 3 = -gi := by
        rw [show (3 : ℕ) = 2 + 1 from rfl, pow_add, hI2]
        ring
      rw [hI3] at c1 c2 c3 c4
      have c1v : esum (fun x => gi ^ x) (insert (4 * q + 3) (insert (4 * q + 2) (insert (4 * q + 1) (Finset.Icc 1 (4 * q))))) 1 = -1 := by
        rw [c1]
        ring
      have c2v : esum (fun x => gi ^ x) (insert (4 * q + 3) (insert (4 * q + 2) (insert (4 * q + 1) (Finset.Icc 1 (4 * q))))) 2 = 1 := by
        rw [c2]
        linear_combination (-1 : GaussianInt) * hI2
      have c3v : esum (fun x => gi ^ x) (insert (4 * q + 3) (insert (4 * q + 2) (insert (4 * q + 1) (Finset.Icc 1 (4 * q))))) 3 = -1 := by
        rw [c3]
        linear_combination hI2
      have c4v : esum (fun x => gi ^ x) (insert (4 * q + 3) (insert (4 * q + 2) (insert (4 * q + 1) (Finset.Icc 1 (4 * q))))) 4 = -(q : GaussianInt) := by
        rw [c4]
        ring
      rw [hp 4, hI4, hc0, c1v] at d1
      rw [hp 4, hI4, c1v, c2v] at d2
      rw [hp 4, hI4, c2v, c3v] at d3
      rw [hp 4, hI4, c3v, c4v] at d4
      refine ⟨?_, ?_, ?_, ?_⟩ <;> rw [hs]
      · rw [d1]
        ring
      · rw [d2]
        ring
      · rw [d3]
        ring
      · rw [d4]
        push_cast
        ring

theorem pow_eq_pow_mod_of_pow_eq_one {R : Type} [CommRing R] {c : R}
    {n : ℕ} (hc : c ^ n = 1) (m : ℕ) : c ^ m = c ^ (m % n) := by
  conv_lhs => rw [← Nat.div_add_mod m n]
  rw [pow_add, pow_mul, hc, one_pow, one_mul]

theorem charSum_eq_resCount_sum {R : Type} [CommRing R] (c : R) (n : ℕ)
    (hn : 1 ≤ n) (hc : c ^ n = 1) :
    esum (fun x => c ^ x) (Finset.Icc 1 n) 4 =
      ∑ t ∈ Finset.range n, (resCount n t : R) * c ^ t := by
  unfold esum
  have hprod : ∀ A ∈ (Finset.Icc 1 n).powersetCard 4,
      (∏ x ∈ A, c ^ x) = c ^ A.sum id := by
    intro A _
    rw [← Finset.prod_pow_eq_pow_sum]
    apply Finset.prod_congr rfl
    intro x _
    rfl
  rw [Finset.sum_congr rfl hprod]
  have hfw := Finset.sum_fiberwise_of_maps_to (t := Finset.range n)
    (s := (Finset.Icc 1 n).powersetCard 4)
    (g := fun A : Finset ℕ => A.sum id % n)
    (fun A _ => Finset.mem_range.mpr (Nat.mod_lt _ (by omega)))
    (fun A => c ^ A.sum id)
  rw [← hfw]
  apply Finset.sum_congr rfl
  intro t ht
  have hfib : ∀ A ∈ ((Finset.Icc 1 n).powersetCard 4).filter
      (fun A => A.sum id % n = t), c ^ A.sum id = c ^ t := by
    intro A hA
    rw [Finset.mem_filter] at hA
    rw [pow_eq_pow_mod_of_pow_eq_one hc, hA.2]
  rw [Finset.sum_congr rfl hfib, Finset.sum_const, nsmul_eq_mul]
  unfold resCount subsetCount
  rfl

theorem resCount_total (n : ℕ) (hn : 1 ≤ n) :
    ∑ t ∈ Finset.range n, resCount n t = n.choose 4 := by
  unfold resCount subsetCount
  beta_reduce
  have hfw := Finset.card_eq_sum_card_fiberwise
    (f := fun A : Finset ℕ => A.sum id % n) (t := Finset.range n)
    (s := (Finset.Icc 1 n).powersetCard 4)
    (fun A _ => Finset.mem_range.mpr (Nat.mod_lt _ (by omega)))
  rw [← hfw, Finset.card_powersetCard, Nat.card_Icc,
    show n + 1 - 1 = n from rfl]

theorem sigma_tau_left {n x : ℕ} (hx : 1 ≤ x) (hx2 : x ≤ n) :
    (if x % n + 1 = 1 then n else x % n + 1 - 1) = x := by
  rcases Nat.lt_or_ge x n with h | h
  · rw [Nat.mod_eq_of_lt h, if_neg (by omega)]
    omega
  · have hxn : x = n := by omega
    subst hxn
    rw [Nat.mod_self]
    simp

theorem image_sigma_sum_mod {n : ℕ} (hn : 1 ≤ n) {A : Finset ℕ}
    (hsub : A ⊆ Finset.Icc 1 n) (hcard : A.card = 4) :
    (A.image (fun x => x % n + 1)).sum id % n = (A.sum id + 4) % n := by
  have hinj : Set.InjOn (fun x => x % n + 1)
      ((A : Finset ℕ) : Set ℕ) := by
    intro x hx y hy he
    have hx' := Finset.mem_Icc.mp (hsub hx)
    have hy' := Finset.mem_Icc.mp (hsub hy)
    have h1 : (if x % n + 1 = 1 then n else x % n + 1 - 1) = x :=
      sigma_tau_left hx'.1 hx'.2
    have h2 : (if y % n + 1 = 1 then n else y % n + 1 - 1) = y :=
      sigma_tau_left hy'.1 hy'.2
    simp only at he
    rw [← h1, ← h2, he]
  rw [Finset.sum_image ?_]
  · have hsplit : (∑ x ∈ A, id (x % n + 1)) =
        (∑ x ∈ A, x % n) + A.card := by
      simp only [id]
      rw [Finset.sum_add_distrib, Finset.sum_const, smul_eq_mul, mul_one]
    have hmod : (∑ x ∈ A, x % n) % n = A.sum id % n := by
      have h0 := Finset.sum_nat_mod A n id
      simp only [id] at h0 ⊢
      rw [h0]
    rw [hsplit, hcard, Nat.add_mod, hmod, ← Nat.add_mod]
  · intro x hx y hy he
    exact hinj hx hy he

theorem tau_sigma_left {n y : ℕ} (hn : 1 ≤ n) (hy : 1 ≤ y) (hy2 : y ≤ n) :
    (if y = 1 then n else y - 1) % n + 1 = y := by
  by_cases h : y = 1
  · subst h
    rw [if_pos rfl, Nat.mod_self]
  · rw [if_neg h, Nat.mod_eq_of_lt (by omega)]
    omega

theorem tau_sigma_image {n : ℕ} (hn : 1 ≤ n) {A : Finset ℕ}
    (hsub : A ⊆ Finset.Icc 1 n) :
    (A.image (fun x => x % n + 1)).image
        (fun y => if y = 1 then n else y - 1) = A := by
  rw [Finset.image_image]
  have hcongr : ∀ x ∈ A,
      ((fun y => if y = 1 then n else y - 1) ∘ (fun x => x % n + 1)) x =
        id x := by
    intro x hx
    have hx' := Finset.mem_Icc.mp (hsub hx)
    simp only [Function.comp, id]
    exact sigma_tau_left hx'.1 hx'.2
  rw [Finset.image_congr hcongr, Finset.image_id]

theorem sigma_tau_image {n : ℕ} (hn : 1 ≤ n) {B : Finset ℕ}
    (hsub : B ⊆ Finset.Icc 1 n) :
    (B.image (fun y => if y = 1 then n else y - 1)).image
        (fun x => x % n + 1) = B := by
  rw [Finset.image_image]
  have hcongr : ∀ y ∈ B,
      ((fun x => x % n + 1) ∘ (fun y => if y = 1 then n else y - 1)) y =
        id y := by
    intro y hy
    have hy' := Finset.mem_Icc.mp (hsub hy)
    simp only [Function.comp, id]
    exact tau_sigma_left hn hy'.1 hy'.2
  rw [Finset.image_congr hcongr, Finset.image_id]

theorem sigma_injOn {n : ℕ} {A : Finset ℕ} (hsub : A ⊆ Finset.Icc 1 n) :
    ∀ x ∈ A, ∀ y ∈ A, x % n + 1 = y % n + 1 → x = y := by
  intro x hx y hy he
  have hx' := Finset.mem_Icc.mp (hsub hx)
  have hy' := Finset.mem_Icc.mp (hsub hy)
  rw [← sigma_tau_left hx'.1 hx'.2, ← sigma_tau_left hy'.1 hy'.2, he]

theorem tau_injOn {n : ℕ} (hn : 1 ≤ n) {B : Finset ℕ}
    (hsub : B ⊆ Finset.Icc 1 n) :
    ∀ x ∈ B, ∀ y ∈ B,
      (if x = 1 then n else x - 1) = (if y = 1 then n else y - 1) → x = y := by
  intro x hx y hy he
  have hx' := Finset.mem_Icc.mp (hsub hx)
  have hy' := Finset.mem_Icc.mp (hsub hy)
  rw [← tau_sigma_left hn hx'.1 hx'.2, ← tau_sigma_left hn hy'.1 hy'.2, he]

theorem resCount_shift (n : ℕ) (hn : 1 ≤ n) (t : ℕ) (ht : t < n) :
    resCount n t = resCount n ((t + 4) % n) := by
  unfold resCount subsetCount
  apply Finset.card_nbij' (fun A => A.image (fun x => x % n + 1))
    (fun B => B.image (fun y => if y = 1 then n else y - 1))
  · intro A hA
    rw [Finset.mem_filter, Finset.mem_powersetCard] at hA
    obtain ⟨⟨hsub, hcard⟩, hsum⟩ := hA
    have hsum' : A.sum id % n = t := hsum
    rw [Finset.mem_filter, Finset.mem_powersetCard]
    refine ⟨⟨?_, ?_⟩, ?_⟩
    · intro y hy
      rcases Finset.mem_image.mp hy with ⟨x, hx, rfl⟩
      have hmlt : x % n < n := Nat.mod_lt _ (by omega)
      rw [Finset.mem_Icc]
      omega
    · rw [Finset.card_image_of_injOn
        (fun x hx y hy he => sigma_injOn hsub x hx y hy he), hcard]
    · show (A.image (fun x => x % n + 1)).sum id % n = (t + 4) % n
      rw [image_sigma_sum_mod hn hsub hcard, ← Nat.mod_add_mod, hsum']
  · intro B hB
    rw [Finset.mem_filter, Finset.mem_powersetCard] at hB
    obtain ⟨⟨hsub, hcard⟩, hsum⟩ := hB
    have hsum' : B.sum id % n = (t + 4) % n := hsum
    have hsub' : B.image (fun y => if y = 1 then n else y - 1) ⊆
        Finset.Icc 1 n := by
      intro x hx
      rcases Finset.mem_image.mp hx with ⟨y, hy, rfl⟩
      have hy' := Finset.mem_Icc.mp (hsub hy)
      rw [Finset.mem_Icc]
      by_cases h1 : y = 1
      · rw [if_pos h1]
        omega
      · rw [if_neg h1]
        omega
    have hcard' : (B.image (fun y => if y = 1 then n else y - 1)).card = 4 := by
      rw [Finset.card_image_of_injOn
        (fun x hx y hy he => tau_injOn hn hsub x hx y hy he), hcard]
    rw [Finset.mem_filter, Finset.mem_powersetCard]
    refine ⟨⟨hsub', hcard'⟩, ?_⟩
    show (B.image (fun y => if y = 1 then n else y - 1)).sum id % n = t
    have hback := image_sigma_sum_mod hn hsub' hcard'
    rw [sigma_tau_image hn hsub] at hback
    -- hback : B.sum id % n = (τ-image sum + 4) % n
    have hcancel : (B.image (fun y => if y = 1 then n else y - 1)).sum id ≡
        t [MOD n] := by
      apply Nat.ModEq.add_right_cancel' 4
      show ((B.image (fun y => if y = 1 then n else y - 1)).sum id + 4) % n =
        (t + 4) % n
      rw [← hback, hsum']
    rw [hcancel, Nat.mod_eq_of_lt ht]
  · intro A hA
    rw [Finset.mem_filter, Finset.mem_powersetCard] at hA
    exact tau_sigma_image hn hA.1.1
  · intro B hB
    rw [Finset.mem_filter, Finset.mem_powersetCard] at hB
    exact sigma_tau_image hn hB.1.1

theorem resCount_shift_iter (n : ℕ) (hn : 1 ≤ n) (t : ℕ) (ht : t < n) :
    ∀ k : ℕ, resCount n t = resCount n ((t + 4 * k) % n) := by
  intro k
  induction k with
  | zero =>
      rw [show t + 4 * 0 = t by ring, Nat.mod_eq_of_lt ht]
  | succ k ih =>
      rw [ih, resCount_shift n hn ((t + 4 * k) % n) (Nat.mod_lt _ (by omega)),
        Nat.mod_add_mod, show t + 4 * k + 4 = t + 4 * (k + 1) by ring]

theorem resCount_class_odd (n : ℕ) (hn : 5 ≤ n) (hodd : n % 2 = 1)
    (t : ℕ) (ht : t < n) : resCount n t = resCount n 0 := by
  rcases Nat.lt_or_ge t 1 with h1 | h1
  · rw [show t = 0 by omega]
  have hiter := resCount_shift_iter n (by omega) 0 (by omega)
  rcases (show n % 4 = 1 ∨ n % 4 = 3 by omega) with h4 | h4
  · obtain ⟨r, hr⟩ : ∃ r, n = 4 * r + 1 := ⟨n / 4, by omega⟩
    have hk : (0 + 4 * (t * (3 * r + 1))) % n = t := by
      rw [show 0 + 4 * (t * (3 * r + 1)) = t + 3 * t * n by rw [hr]; ring,
        Nat.add_mul_mod_self_right, Nat.mod_eq_of_lt ht]
    rw [← hk, ← hiter (t * (3 * r + 1))]
  · obtain ⟨r, hr⟩ : ∃ r, n = 4 * r + 3 := ⟨n / 4, by omega⟩
    have hk : (0 + 4 * (t * (r + 1))) % n = t := by
      rw [show 0 + 4 * (t * (r + 1)) = t + t * n by rw [hr]; ring,
        Nat.add_mul_mod_self_right, Nat.mod_eq_of_lt ht]
    rw [← hk, ← hiter (t * (r + 1))]

theorem resCount_class_two (n : ℕ) (hn : 5 ≤ n) (h4 : n % 4 = 2)
    (t : ℕ) (ht : t < n) : resCount n t = resCount n (t % 2) := by
  obtain ⟨r, hr⟩ : ∃ r, n = 4 * r + 2 := ⟨n / 4, by omega⟩
  rcases (show t % 2 = 0 ∨ t % 2 = 1 by omega) with h2 | h2
  · rw [h2]
    have hiter := resCount_shift_iter n (by omega) 0 (by omega)
    have hk : (0 + 4 * (t / 2 * (r + 1))) % n = t := by
      rw [show 0 + 4 * (t / 2 * (r + 1)) = 2 * (t / 2) + t / 2 * n by
          rw [hr]; ring,
        show 2 * (t / 2) = t by omega,
        Nat.add_mul_mod_self_right, Nat.mod_eq_of_lt ht]
    rw [← hk, ← hiter (t / 2 * (r + 1))]
  · rw [h2]
    have hiter := resCount_shift_iter n (by omega) 1 (by omega)
    have hk : (1 + 4 * (t / 2 * (r + 1))) % n = t := by
      rw [show 1 + 4 * (t / 2 * (r + 1)) = 1 + 2 * (t / 2) + t / 2 * n by
          rw [hr]; ring,
        show 1 + 2 * (t / 2) = t by omega,
        Nat.add_mul_mod_self_right, Nat.mod_eq_of_lt ht]
    rw [← hk, ← hiter (t / 2 * (r + 1))]

theorem resCount_class_four (n : ℕ) (hn : 5 ≤ n) (h4 : n % 4 = 0)
    (t : ℕ) (ht : t < n) : resCount n t = resCount n (t % 4) := by
  have hiter := resCount_shift_iter n (by omega) (t % 4) (by omega)
  have hk : (t % 4 + 4 * (t / 4)) % n = t := by
    rw [show t % 4 + 4 * (t / 4) = t by omega, Nat.mod_eq_of_lt ht]
  have hres := hiter (t / 4)
  rw [hk] at hres
  exact hres.symm

theorem sum_range_two_mul {R : Type} [AddCommMonoid R] (m : ℕ) (g : ℕ → R) :
    ∑ t ∈ Finset.range (2 * m), g t =
      (∑ j ∈ Finset.range m, g (2 * j)) +
        ∑ j ∈ Finset.range m, g (2 * j + 1) := by
  induction m with
  | zero => simp
  | succ m ih =>
      rw [show 2 * (m + 1) = 2 * m + 1 + 1 by ring, Finset.sum_range_succ,
        Finset.sum_range_succ, ih, Finset.sum_range_succ
          (fun j => g (2 * j)) m,
        Finset.sum_range_succ (fun j => g (2 * j + 1)) m]
      have e1 : 2 * m + 1 = 2 * m + 1 := rfl
      abel

theorem sum_range_four_mul {R : Type} [AddCommMonoid R] (r : ℕ) (g : ℕ → R) :
    ∑ t ∈ Finset.range (4 * r), g t =
      (((∑ j ∈ Finset.range r, g (4 * j)) +
        ∑ j ∈ Finset.range r, g (4 * j + 1)) +
        ∑ j ∈ Finset.range r, g (4 * j + 2)) +
        ∑ j ∈ Finset.range r, g (4 * j + 3) := by
  induction r with
  | zero => simp
  | succ r ih =>
      rw [show 4 * (r + 1) = 4 * r + 1 + 1 + 1 + 1 by ring,
        Finset.sum_range_succ, Finset.sum_range_succ, Finset.sum_range_succ,
        Finset.sum_range_succ, ih, Finset.sum_range_succ
          (fun j => g (4 * j)) r,
        Finset.sum_range_succ (fun j => g (4 * j + 1)) r,
        Finset.sum_range_succ (fun j => g (4 * j + 2)) r,
        Finset.sum_range_succ (fun j => g (4 * j + 3)) r,
        show 4 * r + 1 + 1 = 4 * r + 2 by ring,
        show 4 * r + 1 + 1 + 1 = 4 * r + 3 by ring]
      abel

theorem two_dvd_mul_pred (m : ℕ) : 2 ∣ m * (m - 1) := by
  rcases Nat.even_or_odd m with ⟨k, hk⟩ | ⟨k, hk⟩
  · exact ⟨k * (m - 1), by rw [hk]; ring⟩
  · subst hk
    simp only [Nat.add_sub_cancel]
    exact ⟨(2 * k + 1) * k, by ring⟩

theorem choose_two_mul_two (m : ℕ) (hm : 1 ≤ m) :
    2 * (m.choose 2 : ℤ) = m * (m - 1) := by
  have h1 : m.choose 2 * 2 = m * (m - 1) := by
    rw [Nat.choose_two_right, Nat.div_mul_cancel (two_dvd_mul_pred m)]
  have h2 : (m.choose 2 * 2 : ℤ) = ((m * (m - 1) : ℕ) : ℤ) := by
    exact_mod_cast congrArg (Nat.cast : ℕ → ℤ) h1
  push_cast [Nat.cast_sub hm] at h2
  linarith

theorem formula_case_odd (n : ℕ) (hn : 5 ≤ n) (h2 : n % 2 = 1) :
    n.choose 4 = n * resCount n 0 := by
  rw [← resCount_total n (by omega)]
  have hcongr : ∀ t ∈ Finset.range n, resCount n t = resCount n 0 :=
    fun t ht => resCount_class_odd n hn h2 t (Finset.mem_range.mp ht)
  rw [Finset.sum_congr rfl hcongr, Finset.sum_const, Finset.card_range,
    smul_eq_mul]

theorem formula_case_two (n : ℕ) (hn : 5 ≤ n) (h4 : n % 4 = 2) :
    n.choose 4 * 4 = n * (2 * (resCount n 0 + resCount n 1)) ∧
      n.choose 4 * 4 / n * 2 + n - 2 = 8 * resCount n 0 := by
  obtain ⟨m, hm⟩ : ∃ m, n = 2 * m := ⟨n / 2, by omega⟩
  have hm3 : 3 ≤ m := by omega
  have hsum : n.choose 4 = m * resCount n 0 + m * resCount n 1 := by
    rw [← resCount_total n (by omega)]
    have hsplit := sum_range_two_mul m (fun t => resCount n t)
    rw [← hm] at hsplit
    rw [hsplit]
    congr 1
    · have hcl : ∀ j ∈ Finset.range m, resCount n (2 * j) = resCount n 0 := by
        intro j hj
        rw [Finset.mem_range] at hj
        rw [resCount_class_two n hn h4 (2 * j) (by omega)]
        congr 1
        omega
      rw [Finset.sum_congr rfl hcl, Finset.sum_const, Finset.card_range,
        smul_eq_mul]
    · have hcl : ∀ j ∈ Finset.range m,
          resCount n (2 * j + 1) = resCount n 1 := by
        intro j hj
        rw [Finset.mem_range] at hj
        rw [resCount_class_two n hn h4 (2 * j + 1) (by omega)]
        congr 1
        omega
      rw [Finset.sum_congr rfl hcl, Finset.sum_const, Finset.card_range,
        smul_eq_mul]
  have hb4 : esum (fun x => (-1 : ℤ) ^ x) (Finset.Icc 1 n) 4 =
      (m.choose 2 : ℤ) := by
    rw [hm]
    exact (esum_neg_one_blocks m).2.2.2
  rw [charSum_eq_resCount_sum (-1 : ℤ) n (by omega)
    (Even.neg_one_pow ⟨m, by omega⟩)] at hb4
  have hsplitz := sum_range_two_mul m
    (fun t => (resCount n t : ℤ) * (-1) ^ t)
  rw [← hm] at hsplitz
  rw [hsplitz] at hb4
  have hcl0 : ∀ j ∈ Finset.range m,
      (resCount n (2 * j) : ℤ) * (-1) ^ (2 * j) = (resCount n 0 : ℤ) := by
    intro j hj
    rw [Finset.mem_range] at hj
    rw [Even.neg_one_pow ⟨j, by ring⟩, mul_one,
      resCount_class_two n hn h4 (2 * j) (by omega)]
    congr 2
    omega
  have hcl1 : ∀ j ∈ Finset.range m,
      (resCount n (2 * j + 1) : ℤ) * (-1) ^ (2 * j + 1) =
        -(resCount n 1 : ℤ) := by
    intro j hj
    rw [Finset.mem_range] at hj
    rw [Odd.neg_one_pow ⟨j, by ring⟩,
      resCount_class_two n hn h4 (2 * j + 1) (by omega)]
    have : (2 * j + 1) % 2 = 1 := by omega
    rw [this]
    ring
  rw [Finset.sum_congr rfl hcl0, Finset.sum_congr rfl hcl1,
    Finset.sum_const, Finset.sum_const, Finset.card_range, nsmul_eq_mul,
    nsmul_eq_mul] at hb4
  -- hb4 : m * f0 + m * (-f1) = C(m,2)
  have hdiff : 2 * (resCount n 0 : ℤ) - 2 * resCount n 1 = (m : ℤ) - 1 := by
    apply mul_left_cancel₀ (show (m : ℤ) ≠ 0 by
      exact_mod_cast (show m ≠ 0 by omega))
    linear_combination 2 * hb4 + choose_two_mul_two m (by omega)
  constructor
  · rw [hsum, hm]
    ring
  · have hbase : n.choose 4 * 4 / n = 2 * (resCount n 0 + resCount n 1) := by
      rw [show n.choose 4 * 4 = n * (2 * (resCount n 0 + resCount n 1)) by
        rw [hsum, hm]; ring]
      rw [Nat.mul_div_cancel_left _ (by omega)]
    rw [hbase]
    omega

theorem formula_case_four (n : ℕ) (hn : 5 ≤ n) (h4 : n % 4 = 0) :
    n.choose 4 * 4 =
      n * (resCount n 0 + resCount n 1 + resCount n 2 + resCount n 3) ∧
      n.choose 4 * 4 / n * 2 + n - 6 = 8 * resCount n 0 := by
  obtain ⟨r, hr⟩ : ∃ r, n = 4 * r := ⟨n / 4, by omega⟩
  have hr2 : 2 ≤ r := by omega
  have hI2 : gi ^ 2 = -1 := by decide
  have hI3 : gi ^ 3 = -gi := by
    have h : gi ^ 3 = gi ^ 2 * gi := by ring
    rw [h, hI2]; ring
  have hI4 : gi ^ 4 = 1 := by
    have h : gi ^ 4 = gi ^ 2 * gi ^ 2 := by ring
    rw [h, hI2]; ring
  have hsum : n.choose 4 =
      r * (resCount n 0 + resCount n 1 + resCount n 2 + resCount n 3) := by
    rw [← resCount_total n (by omega)]
    have hsplit := sum_range_four_mul r (fun t => resCount n t)
    rw [← hr] at hsplit
    rw [hsplit]
    have hc0 : ∀ j ∈ Finset.range r, resCount n (4 * j) = resCount n 0 := by
      intro j hj
      rw [Finset.mem_range] at hj
      rw [resCount_class_four n hn h4 (4 * j) (by omega)]
      congr 1
      omega
    have hc1 : ∀ j ∈ Finset.range r,
        resCount n (4 * j + 1) = resCount n 1 := by
      intro j hj
      rw [Finset.mem_range] at hj
      rw [resCount_class_four n hn h4 (4 * j + 1) (by omega)]
      congr 1
      omega
    have hc2 : ∀ j ∈ Finset.range r,
        resCount n (4 * j + 2) = resCount n 2 := by
      intro j hj
      rw [Finset.mem_range] at hj
      rw [resCount_class_four n hn h4 (4 * j + 2) (by omega)]
      congr 1
      omega
    have hc3 : ∀ j ∈ Finset.range r,
        resCount n (4 * j + 3) = resCount n 3 := by
      intro j hj
      rw [Finset.mem_range] at hj
      rw [resCount_class_four n hn h4 (4 * j + 3) (by omega)]
      congr 1
      omega
    rw [Finset.sum_congr rfl hc0, Finset.sum_congr rfl hc1,
      Finset.sum_congr rfl hc2, Finset.sum_congr rfl hc3,
      Finset.sum_const, Finset.sum_const, Finset.sum_const,
      Finset.sum_const, Finset.card_range, smul_eq_mul, smul_eq_mul,
      smul_eq_mul, smul_eq_mul]
    ring
  -- parity character
  have hb4 : esum (fun x => (-1 : ℤ) ^ x) (Finset.Icc 1 n) 4 =
      ((2 * r).choose 2 : ℤ) := by
    have h := (esum_neg_one_blocks (2 * r)).2.2.2
    have h2m : 2 * (2 * r) = n := by omega
    rw [h2m] at h
    exact h
  rw [charSum_eq_resCount_sum (-1 : ℤ) n (by omega)
    (Even.neg_one_pow ⟨2 * r, by omega⟩)] at hb4
  have hsplitp := sum_range_four_mul r
    (fun t => (resCount n t : ℤ) * (-1) ^ t)
  rw [← hr] at hsplitp
  rw [hsplitp] at hb4
  have hp0 : ∀ j ∈ Finset.range r,
      (resCount n (4 * j) : ℤ) * (-1) ^ (4 * j) = (resCount n 0 : ℤ) := by
    intro j hj
    rw [Finset.mem_range] at hj
    rw [Even.neg_one_pow ⟨2 * j, by ring⟩, mul_one,
      resCount_class_four n hn h4 (4 * j) (by omega)]
    congr 2
    omega
  have hp1 : ∀ j ∈ Finset.range r,
      (resCount n (4 * j + 1) : ℤ) * (-1) ^ (4 * j + 1) =
        -(resCount n 1 : ℤ) := by
    intro j hj
    rw [Finset.mem_range] at hj
    rw [Odd.neg_one_pow ⟨2 * j, by ring⟩,
      resCount_class_four n hn h4 (4 * j + 1) (by omega)]
    have h : (4 * j + 1) % 4 = 1 := by omega
    rw [h]
    ring
  have hp2 : ∀ j ∈ Finset.range r,
      (resCount n (4 * j + 2) : ℤ) * (-1) ^ (4 * j + 2) =
        (resCount n 2 : ℤ) := by
    intro j hj
    rw [Finset.mem_range] at hj
    rw [Even.neg_one_pow ⟨2 * j + 1, by ring⟩, mul_one,
      resCount_class_four n hn h4 (4 * j + 2) (by omega)]
    congr 2
    omega
  have hp3 : ∀ j ∈ Finset.range r,
      (resCount n (4 * j + 3) : ℤ) * (-1) ^ (4 * j + 3) =
        -(resCount n 3 : ℤ) := by
    intro j hj
    rw [Finset.mem_range] at hj
    rw [Odd.neg_one_pow ⟨2 * j + 1, by ring⟩,
      resCount_class_four n hn h4 (4 * j + 3) (by omega)]
    have h : (4 * j + 3) % 4 = 3 := by omega
    rw [h]
    ring
  rw [Finset.sum_congr rfl hp0, Finset.sum_congr rfl hp1,
    Finset.sum_congr rfl hp2, Finset.sum_congr rfl hp3,
    Finset.sum_const, Finset.sum_const, Finset.sum_const,
    Finset.sum_const, Finset.card_range, nsmul_eq_mul, nsmul_eq_mul,
    nsmul_eq_mul, nsmul_eq_mul] at hb4
  have hpar : (r : ℤ) * resCount n 0 - r * resCount n 1 +
      r * resCount n 2 - r * resCount n 3 = ((2 * r).choose 2 : ℤ) := by
    linear_combination hb4
  have hC2 : 2 * (((2 * r).choose 2 : ℕ) : ℤ) =
      (2 * r : ℤ) * (2 * r - 1) := by
    have h := choose_two_mul_two (2 * r) (by omega)
    push_cast at h ⊢
    linarith
  -- Gaussian character
  have hgn : gi ^ n = 1 := by
    rw [hr, pow_mul, hI4, one_pow]
  have hbG : esum (fun x => gi ^ x) (Finset.Icc 1 n) 4 =
      -(r : GaussianInt) := by
    have h := (esum_gi_blocks r).2.2.2
    rw [← hr] at h
    exact h
  rw [charSum_eq_resCount_sum gi n (by omega) hgn] at hbG
  have hsplitg := sum_range_four_mul r
    (fun t => (resCount n t : GaussianInt) * gi ^ t)
  rw [← hr] at hsplitg
  rw [hsplitg] at hbG
  have hg0 : ∀ j ∈ Finset.range r,
      (resCount n (4 * j) : GaussianInt) * gi ^ (4 * j) =
        (resCount n 0 : GaussianInt) := by
    intro j hj
    rw [Finset.mem_range] at hj
    rw [pow_mul, hI4, one_pow, mul_one,
      resCount_class_four n hn h4 (4 * j) (by omega)]
    congr 2
    omega
  have hg1 : ∀ j ∈ Finset.range r,
      (resCount n (4 * j + 1) : GaussianInt) * gi ^ (4 * j + 1) =
        (resCount n 1 : GaussianInt) * gi := by
    intro j hj
    rw [Finset.mem_range] at hj
    rw [pow_succ, pow_mul, hI4, one_pow, one_mul,
      resCount_class_four n hn h4 (4 * j + 1) (by omega)]
    have h : (4 * j + 1) % 4 = 1 := by omega
    rw [h]
  have hg2 : ∀ j ∈ Finset.range r,
      (resCount n (4 * j + 2) : GaussianInt) * gi ^ (4 * j + 2) =
        -(resCount n 2 : GaussianInt) := by
    intro j hj
    rw [Finset.mem_range] at hj
    rw [pow_add, pow_mul, hI4, one_pow, one_mul, hI2,
      resCount_class_four n hn h4 (4 * j + 2) (by omega)]
    have h : (4 * j + 2) % 4 = 2 := by omega
    rw [h]
    ring
  have hg3 : ∀ j ∈ Finset.range r,
      (resCount n (4 * j + 3) : GaussianInt) * gi ^ (4 * j + 3) =
        -((resCount n 3 : GaussianInt) * gi) := by
    intro j hj
    rw [Finset.mem_range] at hj
    rw [pow_add, pow_mul, hI4, one_pow, one_mul, hI3,
      resCount_class_four n hn h4 (4 * j + 3) (by omega)]
    have h : (4 * j + 3) % 4 = 3 := by omega
    rw [h]
    ring
  rw [Finset.sum_congr rfl hg0, Finset.sum_congr rfl hg1,
    Finset.sum_congr rfl hg2, Finset.sum_congr rfl hg3,
    Finset.sum_const, Finset.sum_const, Finset.sum_const,
    Finset.sum_const, Finset.card_range, nsmul_eq_mul, nsmul_eq_mul,
    nsmul_eq_mul, nsmul_eq_mul] at hbG
  have hre := congrArg Zsqrtd.re hbG
  have him := congrArg Zsqrtd.im hbG
  have hgre : gi.re = 0 := rfl
  have hgim : gi.im = 1 := rfl
  simp only [Zsqrtd.add_re, Zsqrtd.add_im, Zsqrtd.mul_re, Zsqrtd.mul_im,
    Zsqrtd.neg_re, Zsqrtd.neg_im, Zsqrtd.natCast_re, Zsqrtd.natCast_im,
    hgre, hgim, mul_zero, mul_one, zero_mul, add_zero, zero_add,
    neg_zero, neg_neg, mul_neg] at hre him
  have hr0 : (r : ℤ) ≠ 0 := by
    exact_mod_cast (show r ≠ 0 by omega)
  have hf20 : (resCount n 2 : ℤ) = resCount n 0 + 1 := by
    apply mul_left_cancel₀ hr0
    linear_combination -hre
  have hf13 : (resCount n 1 : ℤ) = resCount n 3 := by
    apply mul_left_cancel₀ hr0
    linear_combination him
  have hclass : (resCount n 0 : ℤ) - resCount n 1 + resCount n 2 -
      resCount n 3 = 2 * r - 1 := by
    have h2r0 : (2 * r : ℤ) ≠ 0 := by
      exact_mod_cast (show 2 * r ≠ 0 by omega)
    apply mul_left_cancel₀ h2r0
    linear_combination 2 * hpar + hC2
  constructor
  · rw [hsum, hr]
    ring
  · have hbase : n.choose 4 * 4 / n =
        resCount n 0 + resCount n 1 + resCount n 2 + resCount n 3 := by
      rw [show n.choose 4 * 4 =
          n * (resCount n 0 + resCount n 1 + resCount n 2 + resCount n 3) by
        rw [hsum, hr]; ring]
      rw [Nat.mul_div_cancel_left _ (by omega)]
    rw [hbase]
    omega

theorem specCountDiv_eq_resCount (n : ℤ) (hn : 1 ≤ n) :
    specCountDiv n = resCount n.toNat 0 := by
  unfold specCountDiv
  rw [show resCount n.toNat 0 =
      quadCount (fun x => x % n.toNat = 0) n.toNat by
    rw [quadCount_eq_subsetCount]; rfl]
  apply quadCardZ_eq_quadCount (fun z => n ∣ z) (fun x => x % n.toNat = 0)
  intro x
  constructor
  · intro hdvd
    have hx : n.toNat ∣ x := by
      have h : (n.toNat : ℤ) ∣ (x : ℤ) := by
        rwa [Int.toNat_of_nonneg (by omega)]
      exact_mod_cast h
    omega
  · intro hmod
    have hx : n.toNat ∣ x := by omega
    have h : (n.toNat : ℤ) ∣ (x : ℤ) := by exact_mod_cast hx
    rwa [Int.toNat_of_nonneg (by omega)] at h

theorem specCountDiv_eq_zero_of_lt_five (n : ℤ) (hn : n < 5) :
    specCountDiv n = 0 := by
  unfold specCountDiv
  rw [Finset.card_eq_zero]
  apply Finset.filter_eq_empty_iff.mpr
  intro q hq
  simp only [Finset.mem_product, Finset.mem_Icc] at hq
  obtain ⟨⟨ha1, ha2⟩, ⟨hb1, hb2⟩, ⟨hc1, hc2⟩, hd1, hd2⟩ := hq
  rintro ⟨hab, hbc, hcd, hdvd⟩
  have hn4 : n = 4 := by omega
  subst hn4
  omega

theorem solve_with_formula_eq_specCountDiv (n : ℤ) :
    solve_with_formula n = (specCountDiv n : ℤ) := by
  by_cases h5 : n < 5
  · rw [specCountDiv_eq_zero_of_lt_five n h5]
    unfold solve_with_formula
    rw [if_pos h5]
    rfl
  · push_neg at h5
    rw [specCountDiv_eq_resCount n (by omega)]
    unfold solve_with_formula
    rw [if_neg (by omega)]
    have hm : 5 ≤ n.toNat := by omega
    rcases (show n.toNat % 4 = 0 ∨ n.toNat % 4 = 1 ∨ n.toNat % 4 = 2 ∨
        n.toNat % 4 = 3 by omega) with h4 | h4 | h4 | h4
    · have hc := formula_case_four n.toNat hm h4
      simp only [h4]
      rw [hc.2]
      rw [Nat.mul_div_cancel_left _ (show 0 < 8 by norm_num)]
    · have hodd := formula_case_odd n.toNat hm (by omega)
      simp only [h4]
      rw [show n.toNat.choose 4 * 4 = n.toNat * (4 * resCount n.toNat 0) by
        rw [hodd]; ring]
      rw [Nat.mul_div_cancel_left _ (by omega),
        Nat.mul_div_cancel_left _ (show 0 < 4 by norm_num)]
    · have hc := formula_case_two n.toNat hm h4
      simp only [h4]
      rw [hc.2]
      rw [Nat.mul_div_cancel_left _ (show 0 < 8 by norm_num)]
    · have hodd := formula_case_odd n.toNat hm (by omega)
      simp only [h4]
      rw [show n.toNat.choose 4 * 4 = n.toNat * (4 * resCount n.toNat 0) by
        rw [hodd]; ring]
      rw [Nat.mul_div_cancel_left _ (by omega),
        Nat.mul_div_cancel_left _ (show 0 < 4 by norm_num)]

theorem specCountDiv_eq_sum_specCount (n : ℤ) (hn : 5 ≤ n) :
    specCountDiv n =
      specCount (n * 1) n + specCount (n * 2) n + specCount (n * 3) n := by
  unfold specCountDiv specCount
  have hunion :
      (Finset.Icc 1 n ×ˢ Finset.Icc 1 n ×ˢ Finset.Icc 1 n ×ˢ
          Finset.Icc 1 n).filter
        (fun q : ℤ × ℤ × ℤ × ℤ => q.1 < q.2.1 ∧ q.2.1 < q.2.2.1 ∧
          q.2.2.1 < q.2.2.2 ∧ n ∣ (q.1 + q.2.1 + q.2.2.1 + q.2.2.2)) =
      ((Finset.Icc 1 n ×ˢ Finset.Icc 1 n ×ˢ Finset.Icc 1 n ×ˢ
          Finset.Icc 1 n).filter
        (fun q : ℤ × ℤ × ℤ × ℤ => q.1 < q.2.1 ∧ q.2.1 < q.2.2.1 ∧
          q.2.2.1 < q.2.2.2 ∧ q.1 + q.2.1 + q.2.2.1 + q.2.2.2 = n * 1)) ∪
      ((Finset.Icc 1 n ×ˢ Finset.Icc 1 n ×ˢ Finset.Icc 1 n ×ˢ
          Finset.Icc 1 n).filter
        (fun q : ℤ × ℤ × ℤ × ℤ => q.1 < q.2.1 ∧ q.2.1 < q.2.2.1 ∧
          q.2.2.1 < q.2.2.2 ∧ q.1 + q.2.1 + q.2.2.1 + q.2.2.2 = n * 2)) ∪
      ((Finset.Icc 1 n ×ˢ Finset.Icc 1 n ×ˢ Finset.Icc 1 n ×ˢ
          Finset.Icc 1 n).filter
        (fun q : ℤ × ℤ × ℤ × ℤ => q.1 < q.2.1 ∧ q.2.1 < q.2.2.1 ∧
          q.2.2.1 < q.2.2.2 ∧ q.1 + q.2.1 + q.2.2.1 + q.2.2.2 = n * 3)) := by
    ext q
    obtain ⟨a, b, c, d⟩ := q
    simp only [Finset.mem_union, Finset.mem_filter, Finset.mem_product,
      Finset.mem_Icc]
    constructor
    · rintro ⟨⟨⟨ha1, ha2⟩, ⟨hb1, hb2⟩, ⟨hc1, hc2⟩, hd1, hd2⟩, h1, h2, h3,
        ⟨k, hk⟩⟩
      have hklt : n * k < n * 4 := by linarith
      have hkgt : n * 0 < n * k := by rw [mul_zero]; linarith
      have hk4 : k < 4 := lt_of_mul_lt_mul_left hklt (by omega)
      have hk0 : 0 < k := lt_of_mul_lt_mul_left hkgt (by omega)
      rcases (show k = 1 ∨ k = 2 ∨ k = 3 by omega) with rfl | rfl | rfl
      · exact Or.inl (Or.inl ⟨⟨⟨ha1, ha2⟩, ⟨hb1, hb2⟩, ⟨hc1, hc2⟩,
          hd1, hd2⟩, h1, h2, h3, hk⟩)
      · exact Or.inl (Or.inr ⟨⟨⟨ha1, ha2⟩, ⟨hb1, hb2⟩, ⟨hc1, hc2⟩,
          hd1, hd2⟩, h1, h2, h3, hk⟩)
      · exact Or.inr ⟨⟨⟨ha1, ha2⟩, ⟨hb1, hb2⟩, ⟨hc1, hc2⟩,
          hd1, hd2⟩, h1, h2, h3, hk⟩
    · rintro ((⟨hmem, h1, h2, h3, hs⟩ | ⟨hmem, h1, h2, h3, hs⟩) |
        ⟨hmem, h1, h2, h3, hs⟩)
      · exact ⟨hmem, h1, h2, h3, ⟨1, hs⟩⟩
      · exact ⟨hmem, h1, h2, h3, ⟨2, hs⟩⟩
      · exact ⟨hmem, h1, h2, h3, ⟨3, hs⟩⟩
  rw [hunion]
  have hdis : ∀ N N' : ℤ, N ≠ N' → Disjoint
      ((Finset.Icc 1 n ×ˢ Finset.Icc 1 n ×ˢ Finset.Icc 1 n ×ˢ
          Finset.Icc 1 n).filter
        (fun q : ℤ × ℤ × ℤ × ℤ => q.1 < q.2.1 ∧ q.2.1 < q.2.2.1 ∧
          q.2.2.1 < q.2.2.2 ∧ q.1 + q.2.1 + q.2.2.1 + q.2.2.2 = N))
      ((Finset.Icc 1 n ×ˢ Finset.Icc 1 n ×ˢ Finset.Icc 1 n ×ˢ
          Finset.Icc 1 n).filter
        (fun q : ℤ × ℤ × ℤ × ℤ => q.1 < q.2.1 ∧ q.2.1 < q.2.2.1 ∧
          q.2.2.1 < q.2.2.2 ∧ q.1 + q.2.1 + q.2.2.1 + q.2.2.2 = N')) := by
    intro N N' hNN
    rw [Finset.disjoint_left]
    intro q hq hq'
    rw [Finset.mem_filter] at hq hq'
    exact hNN (hq.2.2.2.2 ▸ hq'.2.2.2.2)
  have h12 : ((n : ℤ) * 1) ≠ n * 2 := by omega
  have h13 : ((n : ℤ) * 1) ≠ n * 3 := by omega
  have h23 : ((n : ℤ) * 2) ≠ n * 3 := by omega
  rw [Finset.card_union_of_disjoint, Finset.card_union_of_disjoint]
  · exact hdis _ _ h12
  · rw [Finset.disjoint_union_left]
    exact ⟨hdis _ _ h13, hdis _ _ h23⟩
/-! ## Guard and progress-parameter claims -/

/-- Claim C5: for all integers `N` and `M` with `N < 10` or `N > 4·M − 6`,
both `count_quadruples(N, M)` and `count_quadruples_pair_sum(N, M)` return
`0` via the early-return guard. -/
theorem C5_range_short_circuit (N M : ℤ) (h : N < 10 ∨ N > 4 * M - 6) :
    count_quadruples N M = 0 ∧ count_quadruples_pair_sum N M = 0 := by
  constructor
  · simp only [count_quadruples, if_pos h]
  · simp only [count_quadruples_pair_sum, if_pos h]

/-- Witness for C5 at the concrete out-of-range input `(9, 100)`. -/
theorem C5_range_short_circuit_witness :
    ((9 : ℤ) < 10 ∨ (9 : ℤ) > 4 * 100 - 6) ∧
      count_quadruples 9 100 = 0 ∧ count_quadruples_pair_sum 9 100 = 0 :=
  ⟨by decide, C5_range_short_circuit 9 100 (by decide)⟩

/-- Claim C9: the progress parameters (`show_progress`,
`progress_position`, `progress_desc`) have zero effect on the value
returned by either engine: any call agrees with the call with
`show_progress = False` and the other progress arguments at their
defaults. -/
theorem C9_progress_noninterference (N M : ℤ) (sp : Bool)
    (pp : Option ℤ) (pd : Option String) :
    count_quadruples N M sp pp pd = count_quadruples N M false none none ∧
      count_quadruples_pair_sum N M sp pp pd =
        count_quadruples_pair_sum N M false none none := by
  cases sp <;> exact ⟨rfl, rfl⟩

/-- Claim C10: negative and degenerate inputs fall through the same range
check and return `0` normally: any `upper_bound ≤ 3` (including zero and
negatives, for every integer `target_sum`), and likewise any
`target_sum < 10` (for every integer `upper_bound`), yields `0` from both
engines. -/
theorem C10_degenerate_inputs_return_zero (N M : ℤ) (h : M ≤ 3 ∨ N < 10) :
    count_quadruples N M = 0 ∧ count_quadruples_pair_sum N M = 0 := by
  refine C5_range_short_circuit N M ?_
  omega

/-- Witness for C10 at the concrete input `target_sum = 50`,
`upper_bound = -7`. -/
theorem C10_degenerate_inputs_return_zero_witness :
    ((-7 : ℤ) ≤ 3 ∨ (50 : ℤ) < 10) ∧
      count_quadruples 50 (-7) = 0 ∧
        count_quadruples_pair_sum 50 (-7) = 0 :=
  ⟨by decide, C10_degenerate_inputs_return_zero 50 (-7) (by decide)⟩

set_option maxRecDepth 8000 in
/-- Claim C7 fails on the code: the only quadruple in `{1, ..., 5}` with
sum `11` is `(1, 2, 3, 5)`, so both engines return `1`, not `2`. -/
theorem C7_counterexample :
    count_quadruples 11 5 ≠ 2 ∧ count_quadruples_pair_sum 11 5 ≠ 2 := by
  decide

set_option maxRecDepth 8000 in
/-- Claim C7 amended: `count_quadruples(11, 5)` returns `1`, and
`count_quadruples_pair_sum(11, 5)` returns `1`. -/
theorem C7_amended_concrete_scenario :
    count_quadruples 11 5 = 1 ∧ count_quadruples_pair_sum 11 5 = 1 := by
  decide

/-- Claim C2: for every pair of integers `target_sum ≥ 0` and
`upper_bound ≥ 0`, `count_quadruples(target_sum, upper_bound)` returns a
non-negative integer equal to the number of 4-element strictly increasing
tuples `(a, b, c, d)` with `1 ≤ a < b < c < d ≤ upper_bound` and
`a + b + c + d = target_sum`. -/
theorem C2_dp_functional_correctness (N M : ℤ) (hN : 0 ≤ N) (hM : 0 ≤ M) :
    count_quadruples N M = (specCount N M : ℤ) ∧
      0 ≤ count_quadruples N M := by
  refine ⟨count_quadruples_eq_specCount N M true none none, ?_⟩
  rw [count_quadruples_eq_specCount N M true none none]
  exact Int.natCast_nonneg _

set_option maxRecDepth 20000 in
/-- Witness for C2 at the concrete input `(11, 5)`: the DP engine returns
`1` and the only quadruple is `(1, 2, 3, 5)`. -/
theorem C2_dp_functional_correctness_witness :
    ((0 : ℤ) ≤ 11 ∧ (0 : ℤ) ≤ 5) ∧
      count_quadruples 11 5 = (specCount 11 5 : ℤ) ∧
        0 ≤ count_quadruples 11 5 :=
  ⟨by decide, C2_dp_functional_correctness 11 5 (by decide) (by decide)⟩

/-- Claim C8 fails on the code: the reflection identity
`count_quadruples(N, M) = count_quadruples(4·M + 4 − N, M)` holds for all
integers `N` and `M` (the map `x ↦ M + 1 − x` is a sum-reflecting
bijection on quadruples and the range guard is symmetric), so no pair of
integers witnesses a difference. -/
theorem C8_counterexample :
    ¬ ∃ N M : ℤ,
      count_quadruples N M ≠ count_quadruples (4 * M + 4 - N) M := by
  rintro ⟨N, M, h⟩
  exact h (count_quadruples_reflection N M)

/-- Claim C8 amended: the reflection symmetry
`count_quadruples(N, M) = count_quadruples(4·M + 4 − N, M)` holds for
every pair of integers `N`, `M`. -/
theorem C8_amended_reflection_symmetry (N M : ℤ) :
    count_quadruples N M = count_quadruples (4 * M + 4 - N) M :=
  count_quadruples_reflection N M

/-- Claim C3: for every pair of integers `target_sum ≥ 0` and
`upper_bound ≥ 0`, `count_quadruples_pair_sum(target_sum, upper_bound)`
returns a non-negative integer equal to the number of strictly increasing
quadruples `(a, b, c, d)` with `1 ≤ a < b < c < d ≤ upper_bound` and
`a + b + c + d = target_sum` (the time and space bounds are resource
claims outside the embedding; the count equality is the statable part). -/
theorem C3_pair_sum_functional_correctness (N M : ℤ) (hN : 0 ≤ N)
    (hM : 0 ≤ M) :
    count_quadruples_pair_sum N M = (specCount N M : ℤ) ∧
      0 ≤ count_quadruples_pair_sum N M := by
  refine ⟨count_quadruples_pair_sum_eq_specCount N M true none none, ?_⟩
  rw [count_quadruples_pair_sum_eq_specCount N M true none none]
  exact Int.natCast_nonneg _

set_option maxRecDepth 20000 in
/-- Witness for C3 at the concrete input `(11, 5)`: the pair-sum engine
returns `1` and the only quadruple is `(1, 2, 3, 5)`. -/
theorem C3_pair_sum_functional_correctness_witness :
    ((0 : ℤ) ≤ 11 ∧ (0 : ℤ) ≤ 5) ∧
      count_quadruples_pair_sum 11 5 = (specCount 11 5 : ℤ) ∧
        0 ≤ count_quadruples_pair_sum 11 5 :=
  ⟨by decide, C3_pair_sum_functional_correctness 11 5 (by decide) (by decide)⟩

/-- Claim C4: for every integer `n`, `solve_with_formula(n)` returns a
non-negative integer equal to the number of strictly increasing quadruples
`1 ≤ a < b < c < d ≤ n` whose sum is divisible by `n`, and in particular
returns `0` for every `n < 5`. -/
theorem C4_formula_functional_correctness (n : ℤ) :
    solve_with_formula n = (specCountDiv n : ℤ) ∧
      0 ≤ solve_with_formula n ∧ (n < 5 → solve_with_formula n = 0) := by
  refine ⟨solve_with_formula_eq_specCountDiv n, ?_, ?_⟩
  · rw [solve_with_formula_eq_specCountDiv n]
    exact Int.natCast_nonneg _
  · intro h5
    rw [solve_with_formula_eq_specCountDiv n,
      specCountDiv_eq_zero_of_lt_five n h5]
    rfl

/-- Witness for C4: at `n = 3` the inner implication fires and the formula
returns `0`; at `n = 13` the counting equality is instantiated. -/
theorem C4_formula_functional_correctness_witness :
    solve_with_formula 3 = 0 ∧
      solve_with_formula 13 = (specCountDiv 13 : ℤ) :=
  ⟨(C4_formula_functional_correctness 3).2.2 (by decide),
    (C4_formula_functional_correctness 13).1⟩

/-- Claim C6: for every `n ≥ 5` all integer divisions in
`solve_with_formula` are exact — `n` divides `comb(n,4)·4`; when
`n mod 4 ∈ {1,3}`, `4` divides `base`; when `n mod 4 = 2`, `8` divides
`2·base + n − 2`; when `n mod 4 = 0`, `8` divides `2·base + n − 6` — and
each resulting quotient is the subset count `resCount` that the formula is
computing. -/
theorem C6_exact_divisions (n : ℕ) (hn : 5 ≤ n) :
    n.choose 4 * 4 % n = 0 ∧
    (n % 4 = 1 ∨ n % 4 = 3 →
      n.choose 4 * 4 / n % 4 = 0 ∧ n.choose 4 * 4 / n / 4 = resCount n 0) ∧
    (n % 4 = 2 →
      (n.choose 4 * 4 / n * 2 + n - 2) % 8 = 0 ∧
        (n.choose 4 * 4 / n * 2 + n - 2) / 8 = resCount n 0) ∧
    (n % 4 = 0 →
      (n.choose 4 * 4 / n * 2 + n - 6) % 8 = 0 ∧
        (n.choose 4 * 4 / n * 2 + n - 6) / 8 = resCount n 0) := by
  refine ⟨?_, ?_, ?_, ?_⟩
  · rcases (show n % 4 = 0 ∨ n % 4 = 1 ∨ n % 4 = 2 ∨ n % 4 = 3 by omega)
      with h4 | h4 | h4 | h4
    · rw [(formula_case_four n hn h4).1]
      exact Nat.mul_mod_right _ _
    · rw [show n.choose 4 * 4 = n * (4 * resCount n 0) by
        rw [formula_case_odd n hn (by omega)]; ring]
      exact Nat.mul_mod_right _ _
    · rw [(formula_case_two n hn h4).1]
      exact Nat.mul_mod_right _ _
    · rw [show n.choose 4 * 4 = n * (4 * resCount n 0) by
        rw [formula_case_odd n hn (by omega)]; ring]
      exact Nat.mul_mod_right _ _
  · intro hodd
    rw [show n.choose 4 * 4 = n * (4 * resCount n 0) by
      rw [formula_case_odd n hn (by omega)]; ring]
    rw [Nat.mul_div_cancel_left _ (by omega)]
    exact ⟨Nat.mul_mod_right _ _,
      Nat.mul_div_cancel_left _ (by norm_num)⟩
  · intro h4
    rw [(formula_case_two n hn h4).2]
    exact ⟨Nat.mul_mod_right _ _,
      Nat.mul_div_cancel_left _ (by norm_num)⟩
  · intro h4
    rw [(formula_case_four n hn h4).2]
    exact ⟨Nat.mul_mod_right _ _,
      Nat.mul_div_cancel_left _ (by norm_num)⟩

/-- Witness for C6 at `n = 13` (so `n mod 4 = 1`): the division by `n` and
the division of `base` by `4` both have zero remainder. -/
theorem C6_exact_divisions_witness :
    (13 : ℕ).choose 4 * 4 % 13 = 0 ∧
      (13 : ℕ).choose 4 * 4 / 13 % 4 = 0 :=
  ⟨(C6_exact_divisions 13 (by decide)).1,
    ((C6_exact_divisions 13 (by decide)).2.1 (Or.inl (by decide))).1⟩

/-- Claim C1: for every integer `n ≥ 5` (and any progress parameters) the
result of `solve_with_formula` equals the result of `solve_with_dp`
(the DP counter summed over the multipliers `1, 2, 3`), which equals the
result of `solve_with_pair_sum` (the pair-sum counter summed over the same
multipliers). -/
theorem C1_three_way_agreement (n : ℤ) (hn : 5 ≤ n) (sp : Bool)
    (pp : Option ℤ) (pd : Option String) :
    solve_with_formula n = solve_with_dp n sp pp pd ∧
      solve_with_dp n sp pp pd = solve_with_pair_sum n sp pp pd := by
  have hdp : solve_with_dp n sp pp pd =
      ((specCount (n * 1) n + specCount (n * 2) n +
        specCount (n * 3) n : ℕ) : ℤ) := by
    unfold solve_with_dp
    simp only [List.foldl_cons, List.foldl_nil,
      count_quadruples_eq_specCount]
    push_cast
    ring
  have hps : solve_with_pair_sum n sp pp pd =
      ((specCount (n * 1) n + specCount (n * 2) n +
        specCount (n * 3) n : ℕ) : ℤ) := by
    unfold solve_with_pair_sum
    simp only [List.foldl_cons, List.foldl_nil,
      count_quadruples_pair_sum_eq_specCount]
    push_cast
    ring
  have hf : solve_with_formula n =
      ((specCount (n * 1) n + specCount (n * 2) n +
        specCount (n * 3) n : ℕ) : ℤ) := by
    rw [solve_with_formula_eq_specCountDiv n,
      specCountDiv_eq_sum_specCount n hn]
  exact ⟨hf.trans hdp.symm, hdp.trans hps.symm⟩

/-- Witness for C1 at `n = 5` with the default progress parameters. -/
theorem C1_three_way_agreement_witness :
    solve_with_formula 5 = solve_with_dp 5 false none none ∧
      solve_with_dp 5 false none none =
        solve_with_pair_sum 5 false none none :=
  C1_three_way_agreement 5 (by decide) false none none
